import Mathlib

/-!
Verification development for the rig-rag retrieval-augmented chat service.

The definitions below are a shallow embedding of the Rust sources:

* `src/web/chat_route.rs` — per-user chat history handling, auto-summarization
  (`compress_history` / `auto_compress_history`), `handle_chat`,
  `handle_stream_chat`, `save_messages_to_db`;
* `src/agent/rig_agent.rs` — `RigAgent::chat` and `rebuild_with_sync`;
* `src/web/preamble_routes.rs` — `update_preamble`;
* `src/web/document_routes.rs` — `process_and_save_document`,
  `chunk_document`, `is_table_start`, `collect_table`, `split_large_table`,
  route-level `delete_document`;
* `src/db/lancedb_store.rs` — `delete_document`, `list_documents_paginated`;
* `src/db/qdrant_store.rs` — `build_filter_for_identifier`, `delete_document`,
  `list_documents_paginated`;
* `src/utils/document_parser.rs` — `format_text_to_markdown`.

Rust strings are modelled as Lean `String` (a packed `List Char`); Rust
`str::len` (UTF-8 byte length) is modelled by `byteLen`; `str::trim` by
`strTrim` (dropping whitespace characters on both ends); `str::lines` by
`rustLines` (split on newline, strip one trailing carriage return per line,
drop the final empty piece produced by a trailing newline).  Calls to
`Utc::now()` are modelled by an explicit clock indexed by call order.
Fallible effects (LLM completions, agent builds, file writes) are modelled
as `Except` values supplied as extra inputs.
-/

namespace RigRag

/-! ## Character/string primitives mirroring the Rust standard library -/

/-- Whitespace test used by `str::trim` (restricted to the usual ASCII
whitespace characters, which covers every input appearing in this file). -/
def isWs (c : Char) : Bool := c.isWhitespace

/-- `str::trim`: drop whitespace characters from both ends. -/
def strTrim (s : String) : String :=
  ⟨((s.data.dropWhile isWs).reverse.dropWhile isWs).reverse⟩

/-- `str::starts_with` on string patterns. -/
def strStartsWith (s p : String) : Bool := decide (p.data <+: s.data)

/-- `str::ends_with` on string patterns. -/
def strEndsWith (s p : String) : Bool := decide (p.data <:+ s.data)

/-- `str::contains` for a single-character pattern. -/
def strContainsChar (s : String) (c : Char) : Bool := s.data.contains c

/-- `str::contains` for a string pattern. -/
def strContainsSub (s p : String) : Bool := decide (p.data <:+: s.data)

/-- `str::len`: the UTF-8 byte length of a string. -/
def byteLen (s : String) : Nat := (s.data.map Char.utf8Size).sum

/-- One piece of `str::lines`: strip a single trailing carriage return. -/
def stripCR (l : List Char) : List Char :=
  if l.getLast? = some '\r' then l.dropLast else l

/-- Split a character list at every newline (pieces do not contain the
newline itself; `n` newlines yield `n+1` pieces). -/
def splitNl : List Char → List (List Char)
  | [] => [[]]
  | c :: rest =>
    if c = '\n' then [] :: splitNl rest
    else
      match splitNl rest with
      | [] => [[c]]
      | p :: ps => (c :: p) :: ps

/-- `str::lines` on character lists: split on newline, drop the final empty
piece caused by a trailing newline, strip one trailing `\r` per line. -/
def rustLinesL (l : List Char) : List (List Char) :=
  if l = [] then []
  else if l.getLast? = some '\n' then (splitNl l).dropLast.map stripCR
  else (splitNl l).map stripCR

/-- `str::lines` packaged on strings. -/
def rustLines (s : String) : List String := (rustLinesL s.data).map (⟨·⟩)

/-- `Vec<&str>::join("\n")` at the character-list level. -/
def joinLinesL : List (List Char) → List Char
  | [] => []
  | [l] => l
  | l :: ls => l ++ '\n' :: joinLinesL ls

/-- `Vec<&str>::join("\n")` on strings. -/
def joinLines (ls : List String) : String := ⟨joinLinesL (ls.map String.data)⟩

/-- `str::trim_end_matches`: repeatedly remove the pattern from the end. -/
def trimSuffixAll (l pat : List Char) : List Char :=
  if h : pat ≠ [] ∧ pat <:+ l then
    trimSuffixAll (l.take (l.length - pat.length)) pat
  else l
termination_by l.length
decreasing_by
  simp only [List.length_take]
  have h1 : 1 ≤ pat.length := List.length_pos.mpr h.1
  have h2 : pat.length ≤ l.length := h.2.length_le
  omega

/-- A string with at least one non-whitespace character. -/
def hasNonWs (s : String) : Prop := ∃ c ∈ s.data, isWs c = false

instance (s : String) : Decidable (hasNonWs s) := by
  unfold hasNonWs; infer_instance

/-! ## Chat history model (`src/web/chat_route.rs`) -/

/-- `rig::completion::Message` restricted to the text payloads used by the
chat route. -/
inductive Msg where
  | user (text : String)
  | assistant (text : String)
deriving DecidableEq, Repr

/-- `COMPRESS_THRESHOLD` from `chat_route.rs`. -/
def COMPRESS_THRESHOLD : Nat := 5

/-- `MAX_HISTORY_MESSAGES` from `chat_route.rs`. -/
def MAX_HISTORY_MESSAGES : Nat := 10

/-- The synthetic summary turn produced by `compress_history`. -/
def summaryMsg (summary : String) : Msg := Msg.user ("[历史总结] " ++ summary)

/-- Whether a history entry is a synthetic summary turn. -/
def isSummaryTurn : Msg → Bool
  | Msg.user t => strStartsWith t "[历史总结] "
  | Msg.assistant _ => false

/-- `compress_history`: if the history exceeds `max_messages`, ask the agent
for a summary (`summaryOutcome` is the result of that LLM call); on success
the whole history is replaced by one synthetic summary turn, on failure the
head is dropped down to `max_messages` entries. -/
def compressHistory (history : List Msg) (maxMessages : Nat)
    (summaryOutcome : Except String String) : List Msg :=
  if history.length ≤ maxMessages then history
  else
    match summaryOutcome with
    | .ok summary => [summaryMsg summary]
    | .error _ => history.drop (history.length - maxMessages)

/-- The in-memory history update performed by `handle_stream_chat` after the
stream completes: push the user and assistant turns, then auto-compress when
the length exceeds `COMPRESS_THRESHOLD` (via `auto_compress_history`, whose
`Ok` branch installs the result of `compress_history`). -/
def streamChatHistoryUpdate (history : List Msg) (rawMessage response : String)
    (summaryOutcome : Except String String) : List Msg :=
  let message := strTrim rawMessage
  let pushed := history ++ [Msg.user message, Msg.assistant response]
  if pushed.length > COMPRESS_THRESHOLD then
    compressHistory pushed COMPRESS_THRESHOLD summaryOutcome
  else pushed

/-- Result of one synchronous `handle_chat` request. -/
structure ChatHandlerResult where
  history : List Msg
  dbWrites : List Msg
  status : Nat
  response : String
deriving DecidableEq, Repr

/-- `handle_chat`: on a successful completion, push the (trimmed) user turn
and the assistant turn, truncate the head beyond `MAX_HISTORY_MESSAGES`, and
write both turns to the durable conversation log (`save_messages_to_db`); on
a failed completion, leave history and log untouched and answer HTTP 200
with the error text in the `response` field. -/
def handleChat (history : List Msg) (rawMessage : String)
    (outcome : Except String String) : ChatHandlerResult :=
  let message := strTrim rawMessage
  match outcome with
  | .ok response =>
    let pushed := history ++ [Msg.user message, Msg.assistant response]
    let excess := pushed.length - MAX_HISTORY_MESSAGES
    { history := pushed.drop excess
      dbWrites := [Msg.user message, Msg.assistant response]
      status := 200
      response := response }
  | .error e =>
    { history := history
      dbWrites := []
      status := 200
      response := "Sorry, I encountered an error: " ++ e }

/-! ## Agent core model (`src/agent/rig_agent.rs`) -/

/-- The mutable state of `RigAgent`: the atomically published compiled agent
(`Option` of an opaque generation token), the `needs_rebuild` flag and the
preamble held in the context. -/
structure AgentCore where
  agent : Option Nat
  needsRebuild : Bool
  preamble : String
deriving DecidableEq, Repr

/-- `rebuild_with_sync`: reload the preamble from file, then build a new
agent (`buildOutcome` is the result of `build_agent`).  On success the agent
pointer is swapped and the dirty flag cleared; on failure the function
returns early with the previous agent still published and the flag
untouched. -/
def rebuildWithSync (st : AgentCore) (preambleFile : String)
    (buildOutcome : Except String Nat) : AgentCore × Except String Unit :=
  let st1 := { st with preamble := preambleFile }
  match buildOutcome with
  | .error e => (st1, .error e)
  | .ok newAgent =>
    ({ st1 with agent := some newAgent, needsRebuild := false }, .ok ())

/-- The completion step of `RigAgent::chat` once the rebuild check has
passed: fail if no agent is published, otherwise forward the completion
outcome (errors wrapped as `Chat error: ...`). -/
def agentRunCompletion (st : AgentCore) (completion : Except String String) :
    AgentCore × Except String String :=
  match st.agent with
  | none => (st, .error "Agent not initialized")
  | some _ =>
    match completion with
    | .ok response => (st, .ok response)
    | .error e => (st, .error ("Chat error: " ++ e))

/-- `RigAgent::chat` (the dirty-flag / rebuild part shared with
`stream_chat`): when `needs_rebuild` is set, run `rebuild_with_sync` first
and propagate its failure; otherwise (or on rebuild success) run the
completion against the published agent. -/
def agentChatStep (st : AgentCore) (preambleFile : String)
    (buildOutcome : Except String Nat) (completion : Except String String) :
    AgentCore × Except String String :=
  if st.needsRebuild then
    match rebuildWithSync st preambleFile buildOutcome with
    | (st1, .error e) => (st1, .error e)
    | (st1, .ok ()) => agentRunCompletion st1 completion
  else agentRunCompletion st completion

/-! ## Preamble route model (`src/web/preamble_routes.rs`) -/

/-- The slice of agent context state touched by `update_preamble`. -/
structure PreambleState where
  preamble : String
  needsRebuild : Bool
deriving DecidableEq, Repr

/-- Default secret used when `PREAMBLE_SECRET_KEY` is unset. -/
def defaultPreambleSecret : String := "aaa111==="

/-- `update_preamble`: compare the request secret (absent treated as the
empty string) against the `PREAMBLE_SECRET_KEY` environment value (absent
treated as `"aaa111==="`); on mismatch answer 403 without touching state; on
match update the in-memory preamble, set the dirty flag, then persist to the
preamble file (`saveOutcome`), answering 500 on a failed write and 200
otherwise. -/
def updatePreamble (envSecret reqSecretKey : Option String) (content : String)
    (st : PreambleState) (saveOutcome : Except String Unit) :
    Nat × PreambleState :=
  let required := envSecret.getD defaultPreambleSecret
  let provided := reqSecretKey.getD ""
  if provided ≠ required then (403, st)
  else
    let st1 : PreambleState := { preamble := content, needsRebuild := true }
    match saveOutcome with
    | .error _ => (500, st1)
    | .ok () => (200, st1)

/-! ## Ingestion document construction (`process_and_save_document`) -/

/-- A vector-store row as built by `process_and_save_document`
(LanceDB `Document`); timestamps in milliseconds. -/
structure Doc where
  id : String
  content : String
  source : String
  created_at : Nat
  updated_at : Nat
deriving DecidableEq, Repr

/-- The per-chunk `Document` construction in `process_and_save_document`:
for every chunk index the id is `base_id` (single chunk) or `base_id-idx`,
the source is decorated with ` (Part k/N)` for multi-chunk uploads, and
`Utc::now()` is called once per chunk (modelled by `clock idx`) and used for
both `created_at` and `updated_at`. -/
def mkChunkDocuments (chunks : List String) (baseId filename : String)
    (clock : Nat → Nat) : List Doc :=
  let totalChunks := chunks.length
  chunks.enum.map (fun p =>
    let idx := p.1
    let source :=
      if totalChunks > 1 then
        filename ++ " (Part " ++ toString (idx + 1) ++ "/" ++
          toString totalChunks ++ ")"
      else filename
    let id :=
      if totalChunks = 1 then baseId else baseId ++ "-" ++ toString idx
    let timestamp := clock idx
    { id := id, content := p.2, source := source,
      created_at := timestamp, updated_at := timestamp })

/-! ## Vector-store deletion (`lancedb_store.rs` / `qdrant_store.rs`) -/

/-- A stored LanceDB row (fields relevant to deletion). -/
structure LanceRow where
  id : String
  content : String
deriving DecidableEq, Repr

/-- LanceDB `delete_document`: `table.delete("id = '{id}'")` removes exactly
the rows whose id equals the identifier literally. -/
def lancedbDeleteDocument (rows : List LanceRow) (identifier : String) :
    List LanceRow :=
  rows.filter (fun r => r.id != identifier)

/-- A stored Qdrant point payload (fields relevant to deletion). -/
structure QdrantRow where
  id : String
  base_id : String
deriving DecidableEq, Repr

/-- The `_CHUNKED` grouped-deletion suffix. -/
def chunkedSuffix : String := "_CHUNKED"

/-- `build_filter_for_identifier`: identifiers ending in `_CHUNKED` match on
the `base_id` payload field after stripping (all) trailing `_CHUNKED`
suffixes; other identifiers match on `id`. -/
def buildFilterForIdentifier (identifier : String) (r : QdrantRow) : Bool :=
  if strEndsWith identifier chunkedSuffix then
    r.base_id == ⟨trimSuffixAll identifier.data chunkedSuffix.data⟩
  else r.id == identifier

/-- Qdrant `delete_document`: delete all points matching the filter. -/
def qdrantDeleteDocument (rows : List QdrantRow) (identifier : String) :
    List QdrantRow :=
  rows.filter (fun r => !buildFilterForIdentifier identifier r)

/-- The deletion set claimed by the specification: rows whose id starts with
`base_id-` or equals `base_id`. -/
def claimDeletes (baseId : String) (id : String) : Bool :=
  strStartsWith id (baseId ++ "-") || id == baseId

/-! ## Paginated listing (`list_documents_paginated`) -/

/-- A stored row as seen by the listing endpoints. -/
structure StoreDoc where
  id : String
  updated_at : Nat
deriving DecidableEq, Repr

/-- Stable insertion of one element into a list sorted by `updated_at`
descending (equal keys keep earlier elements first). -/
def insertByUpdatedDesc (x : StoreDoc) : List StoreDoc → List StoreDoc
  | [] => [x]
  | y :: ys =>
    if y.updated_at < x.updated_at then x :: y :: ys
    else y :: insertByUpdatedDesc x ys

/-- The stable descending sort `documents.sort_by(|a, b|
b.updated_at.cmp(&a.updated_at))`. -/
def sortByUpdatedDesc (l : List StoreDoc) : List StoreDoc :=
  l.foldl (fun acc x => insertByUpdatedDesc x acc) []

/-- `limit.clamp(1, 1000)`. -/
def clampLimit (limit : Nat) : Nat := max 1 (min limit 1000)

/-- LanceDB `list_documents_paginated`: fetch the first `offset + limit`
rows in table scan order, sort those by `updated_at` descending, then slice
`[offset .. offset+limit]`; the returned total is the full row count. -/
def lancedbListDocumentsPaginated (rows : List StoreDoc)
    (limit offset : Nat) : List StoreDoc × Nat :=
  let total := rows.length
  let safeLimit := clampLimit limit
  let upto := offset + safeLimit
  let fetched := rows.take upto
  let sorted := sortByUpdatedDesc fetched
  let start := min offset sorted.length
  let stop := min (start + safeLimit) sorted.length
  ((sorted.drop start).take (stop - start), total)

/-- Qdrant `list_documents_paginated`: the server evaluates
`order_by updated_at desc` with `offset` and `limit` over the whole
collection (modelled here by sorting the full row list). -/
def qdrantListDocumentsPaginated (rows : List StoreDoc)
    (limit offset : Nat) : List StoreDoc × Nat :=
  let safeLimit := clampLimit limit
  (((sortByUpdatedDesc rows).drop offset).take safeLimit, rows.length)

/-- Modelled from the spec: "results are sorted by `updated_at` descending;
`offset` and `limit` are applied after sort; `limit` is clamped to
`[1, 1000]`", together with the total row count. -/
def specListPaginated (rows : List StoreDoc) (limit offset : Nat) :
    List StoreDoc × Nat :=
  let safeLimit := clampLimit limit
  (((sortByUpdatedDesc rows).drop offset).take safeLimit, rows.length)

/-! ## Text-to-Markdown heuristic (`document_parser.rs`,
`format_text_to_markdown`) -/

/-- `str::ends_with` for a single character. -/
def endsWithChar (s : String) (c : Char) : Bool := s.data.getLast? = some c

/-- `str::starts_with` for a single character. -/
def startsWithChar (s : String) (c : Char) : Bool := s.data.head? = some c

/-- The `is_potential_title` test of `format_text_to_markdown`, applied to
the trimmed line `t`: shorter than 60 bytes, not ending in one of
`。 . , ， ： :`, not starting with `-`, `*` or `#`, and directly after an
empty line. -/
def titleHeuristic (t : String) (prevEmpty : Bool) : Bool :=
  decide (byteLen t < 60) &&
    !endsWithChar t '。' && !endsWithChar t '.' && !endsWithChar t ',' &&
    !endsWithChar t '，' && !endsWithChar t '：' && !endsWithChar t ':' &&
    !startsWithChar t '-' && !startsWithChar t '*' && !startsWithChar t '#' &&
    prevEmpty

/-- The line loop of `format_text_to_markdown`, carrying `prev_line_empty`,
`is_first_line` and the accumulated result. -/
def fttmGo : List String → Bool → Bool → String → String
  | [], _, _, acc => acc
  | l :: rest, prevEmpty, isFirst, acc =>
    let t := strTrim l
    if t = "" then
      if prevEmpty then fttmGo rest prevEmpty isFirst acc
      else fttmGo rest true isFirst (if isFirst then acc else acc ++ "\n")
    else
      let pref := if titleHeuristic t prevEmpty then "## " else ""
      fttmGo rest false false ((if isFirst then acc else acc ++ "\n") ++ pref ++ t)

/-- `format_text_to_markdown`. -/
def formatTextToMarkdown (text : String) : String :=
  fttmGo (rustLines text) false true ""

/-- Concatenate lines, each preceded by a newline. -/
def strConcatMapNl : List String → String
  | [] => ""
  | x :: xs => "\n" ++ x ++ strConcatMapNl xs

/-- Join already-rendered lines with newline separators. -/
def intercalateNl : List String → String
  | [] => ""
  | l :: ls => l ++ strConcatMapNl ls

/-- Declarative per-line rendering equivalent to the code: given the
previous original line (`none` at the start of the text), a blank line is
kept (as one empty output line) exactly when the previous line exists and is
non-blank, and a non-blank line is emitted trimmed, with the `## ` marker
exactly when `titleHeuristic` holds of it and the previous line is blank. -/
def declRender (prevLine : Option String) (l : String) : Option String :=
  let t := strTrim l
  if t = "" then
    match prevLine with
    | some p => if strTrim p = "" then none else some ""
    | none => none
  else
    let prevBlank : Bool :=
      match prevLine with
      | some p => strTrim p = ""
      | none => false
    some ((if titleHeuristic t prevBlank then "## " else "") ++ t)

/-- Apply `declRender` along a list of lines. -/
def declProcess : Option String → List String → List String
  | _, [] => []
  | prevLine, l :: rest =>
    match declRender prevLine l with
    | some r => r :: declProcess (some l) rest
    | none => declProcess (some l) rest

/-- Modelled from the spec: the Markdown heuristic as the claim states it,
with the `## ` marker withheld from lines ending in sentence-terminating
punctuation (`. 。 ! ? ！ ？`). -/
def claimRender (prevLine : Option String) (l : String) : Option String :=
  let t := strTrim l
  if t = "" then
    match prevLine with
    | some p => if strTrim p = "" then none else some ""
    | none => none
  else
    let prevBlank : Bool :=
      match prevLine with
      | some p => strTrim p = ""
      | none => false
    let isTitle := decide (byteLen t < 60) &&
      !endsWithChar t '。' && !endsWithChar t '.' && !endsWithChar t '!' &&
      !endsWithChar t '?' && !endsWithChar t '！' && !endsWithChar t '？' &&
      !startsWithChar t '-' && !startsWithChar t '*' && !startsWithChar t '#' &&
      prevBlank
    some ((if isTitle then "## " else "") ++ t)

/-- Apply `claimRender` along a list of lines. -/
def claimProcess : Option String → List String → List String
  | _, [] => []
  | prevLine, l :: rest =>
    match claimRender prevLine l with
    | some r => r :: claimProcess (some l) rest
    | none => claimProcess (some l) rest

/-- Modelled from the spec: the full Markdown heuristic as claimed. -/
def claimFormatTextToMarkdown (text : String) : String :=
  intercalateNl (claimProcess none (rustLines text))

/-! ## Chunker (`document_routes.rs`) -/

/-- `is_table_start`: the line contains `|` and is a `---`/`===` separator
line, or an adjacent line also contains `|`. -/
def isTableStart (lines : List String) (i : Nat) : Bool :=
  if i ≥ lines.length then false
  else
    let line := strTrim (lines.getD i "")
    if strContainsChar line '|' then
      if strContainsSub line "---" || strContainsSub line "===" then true
      else if decide (i + 1 < lines.length) &&
          strContainsChar (strTrim (lines.getD (i + 1) "")) '|' then true
      else if decide (0 < i) &&
          strContainsChar (strTrim (lines.getD (i - 1) "")) '|' then true
      else false
    else false

/-- The backward scan of `collect_table`: while the preceding line contains
`|`, move the start index back. -/
def collectTableRewind (lines : List String) : Nat → Nat
  | 0 => 0
  | i + 1 =>
    if strContainsChar (strTrim (lines.getD i "")) '|' then
      collectTableRewind lines i
    else i + 1

/-- The forward scan of `collect_table` (fuelled; the fuel passed by
`collectTable` covers every reachable iteration count): collect lines
containing `|`, bridging a blank line when the line after it still contains
`|`; return the collected lines and the stop index. -/
def collectTableForward (lines : List String) : Nat → Nat → List String × Nat
  | 0, i => ([], i)
  | fuel + 1, i =>
    if i < lines.length then
      let line := strTrim (lines.getD i "")
      if line = "" then
        if decide (i + 1 < lines.length) &&
            strContainsChar (strTrim (lines.getD (i + 1) "")) '|' then
          collectTableForward lines fuel (i + 1)
        else ([], i)
      else if strContainsChar line '|' then
        let out := collectTableForward lines fuel (i + 1)
        (lines.getD i "" :: out.1, out.2)
      else ([], i)
    else ([], i)

/-- `collect_table`: rewind to the table start, collect forward, return the
joined table text and the index of the last table line
(`i.saturating_sub(1)`). -/
def collectTable (lines : List String) (start : Nat) : String × Nat :=
  let j := collectTableRewind lines start
  let fw := collectTableForward lines (lines.length + 1) j
  (joinLines fw.1, fw.2 - 1)

/-- The fixed-line fallback split of `split_large_table`, used when the
header alone reaches the chunk size: pack whole lines greedily, trimming
each emitted chunk. -/
def hardSplitGo (chunkSize : Nat) : List String → String → List String
  | [], current => if current ≠ "" then [strTrim current] else []
  | l :: rest, current =>
    let lineWithNewline := if rest = [] then l else l ++ "\n"
    if byteLen current + byteLen lineWithNewline > chunkSize ∧ current ≠ "" then
      strTrim current :: hardSplitGo chunkSize rest lineWithNewline
    else hardSplitGo chunkSize rest (current ++ lineWithNewline)

/-- The main row loop of `split_large_table`: start each chunk with the
header text and greedily add body rows; on overflow flush the chunk and
start a fresh one with the header; finally keep the last chunk when it grew
beyond the bare header. -/
def sltGo (headerText : String) (headerSize chunkSize : Nat) :
    List String → String → Nat → List String
  | [], current, _ =>
    if byteLen current > headerSize then [current] else []
  | r :: rest, current, currentSize =>
    let rowWithNewline := "\n" ++ r
    let rowSize := byteLen rowWithNewline
    if currentSize + rowSize > chunkSize then
      current ::
        sltGo headerText headerSize chunkSize rest (headerText ++ rowWithNewline)
          (headerSize + rowSize)
    else
      sltGo headerText headerSize chunkSize rest (current ++ rowWithNewline)
        (currentSize + rowSize)

/-- `split_large_table`: tables of at most two lines are returned whole;
when the two header lines (plus a newline) reach the chunk size the table is
hard-split line by line; otherwise body rows are packed under a repeated
header; an empty result falls back to the whole table text. -/
def splitLargeTable (tableText : String) (chunkSize : Nat) : List String :=
  let lines := rustLines tableText
  if lines.length ≤ 2 then [tableText]
  else
    let headerLines := if lines.length ≥ 2 then lines.take 2 else lines.take 1
    let headerText := joinLines headerLines
    let headerSize := byteLen headerText + 1
    if headerSize ≥ chunkSize then
      hardSplitGo chunkSize lines ""
    else
      let out := sltGo headerText headerSize chunkSize (lines.drop 2) headerText headerSize
      if out = [] then [tableText] else out

/-- The oversized-table branch of `chunk_document`: split the table, then
prepend the title (when present) to every emitted chunk. -/
def oversizedTableChunks (titleLine : Option String) (tableText : String)
    (chunkSize : Nat) : List String :=
  let tableChunks := splitLargeTable tableText chunkSize
  match titleLine with
  | some title => tableChunks.map (fun c => title ++ c)
  | none => tableChunks

/-- The backward search for the nearest non-empty line before index `i`
(used for table titles); returns it trimmed. -/
def findPrevNonEmpty (lines : List String) : Nat → Option String
  | 0 => none
  | j + 1 =>
    let l := strTrim (lines.getD j "")
    if l ≠ "" then some l else findPrevNonEmpty lines j

/-- The heading-defer check of `chunk_document`: whether the first non-empty
line at or after index `j` starts a table. -/
def hasTableAfterHeading (lines : List String) : Nat → Nat → Bool
  | 0, _ => false
  | fuel + 1, j =>
    if j < lines.length then
      if strTrim (lines.getD j "") = "" then hasTableAfterHeading lines fuel (j + 1)
      else isTableStart lines j
    else false

/-- Skip blank lines from index `i`. -/
def skipBlanks (lines : List String) : Nat → Nat → Nat
  | 0, i => i
  | fuel + 1, i =>
    if i < lines.length ∧ strTrim (lines.getD i "") = "" then
      skipBlanks lines fuel (i + 1)
    else i

/-- Collect the continuation of a paragraph starting at index `i`:
consecutive non-empty lines that do not start a table. -/
def collectParagraph (lines : List String) : Nat → Nat → List String × Nat
  | 0, i => ([], i)
  | fuel + 1, i =>
    if i < lines.length ∧ strTrim (lines.getD i "") ≠ "" ∧
        isTableStart lines i = false then
      let out := collectParagraph lines fuel (i + 1)
      (lines.getD i "" :: out.1, out.2)
    else ([], i)

/-- The sentence-terminating characters used to split oversized
paragraphs. -/
def isSentencePunct (c : Char) : Bool :=
  c = '.' || c = '。' || c = '!' || c = '?' || c = '！' || c = '？'

/-- `str::split` on a character class (pieces between separators, including
empty pieces). -/
def splitOnPred (p : Char → Bool) : List Char → List (List Char)
  | [] => [[]]
  | c :: rest =>
    if p c then [] :: splitOnPred p rest
    else
      match splitOnPred p rest with
      | [] => [[c]]
      | q :: qs => (c :: q) :: qs

/-- Split a paragraph at sentence-terminating punctuation. -/
def splitSentences (s : String) : List String :=
  (splitOnPred isSentencePunct s.data).map (⟨·⟩)

/-- The oversized-paragraph loop of `chunk_document`: trim each sentence,
skip empty ones, re-suffix `. `, flush the current chunk on overflow. -/
def sentenceFold (chunkSize : Nat) :
    List String → List String → String → Nat → List String × String × Nat
  | [], chunks, current, size => (chunks, current, size)
  | s :: rest, chunks, current, size =>
    let t := strTrim s
    if t = "" then sentenceFold chunkSize rest chunks current size
    else
      let swp := t ++ ". "
      if size + byteLen swp > chunkSize ∧ size > 0 then
        sentenceFold chunkSize rest (chunks ++ [strTrim current]) swp (byteLen swp)
      else
        sentenceFold chunkSize rest chunks (current ++ swp) (size + byteLen swp)

/-- The table-title step of `chunk_document`: look backward for the nearest
non-empty line; when it is a `#` heading not already contained in the
current chunk, take it (with two newlines) as the title, flushing the
current chunk when non-trivial.  Returns the title and the updated
`(chunks, current, size)` accumulator. -/
def chunkTitleStep (lines : List String) (i : Nat) (current : String)
    (size : Nat) (chunks : List String) :
    Option String × List String × String × Nat :=
  match findPrevNonEmpty lines i with
  | some l =>
    if strStartsWith l "#" then
      if strContainsSub current l = false then
        if size > 0 ∧ strTrim current ≠ "" then
          (some (l ++ "\n\n"), chunks ++ [strTrim current], "", 0)
        else (some (l ++ "\n\n"), chunks, current, size)
      else (none, chunks, current, size)
    else (none, chunks, current, size)
  | none => (none, chunks, current, size)

/-- The table step of `chunk_document` after title resolution: collect the
table, flush the current chunk when title + table would overflow it, and
either split an oversized table (title prepended to each piece) or append
title and table to the current chunk.  Returns the updated
`(chunks, current, size)` and the next line index. -/
def chunkTableStep (lines : List String) (chunkSize i : Nat)
    (titleLine : Option String) (chunks : List String) (current : String)
    (size : Nat) : List String × String × Nat × Nat :=
  let ct := collectTable lines i
  let tableText := ct.1
  let tableEnd := ct.2
  let tableWithNewlines := tableText ++ "\n\n"
  let titleSize := match titleLine with | some t => byteLen t | none => 0
  let totalSize := titleSize + byteLen tableWithNewlines
  let fc2 :=
    if size + totalSize > chunkSize ∧ size > 0 then
      (if strTrim current ≠ "" then chunks ++ [strTrim current] else chunks,
        "", 0)
    else (chunks, current, size)
  let chunks2 := fc2.1
  let current2 := fc2.2.1
  let size2 := fc2.2.2
  if totalSize > chunkSize then
    let fc3 :=
      if strTrim current2 ≠ "" then (chunks2 ++ [strTrim current2], "", 0)
      else (chunks2, current2, size2)
    (fc3.1 ++ oversizedTableChunks titleLine tableText chunkSize,
      fc3.2.1, fc3.2.2, tableEnd + 1)
  else
    let current3 := match titleLine with | some t => current2 ++ t | none => current2
    (chunks2, current3 ++ tableWithNewlines,
      size2 + titleSize + byteLen tableWithNewlines, tableEnd + 1)

/-- The paragraph step of `chunk_document`: collect the paragraph starting
at index `i`; an oversized paragraph is split into sentences, a fitting
non-blank paragraph is appended (flushing on overflow), a blank paragraph
is dropped.  Returns the updated `(chunks, current, size)` and the index
after the paragraph. -/
def chunkParagraphStep (lines : List String) (chunkSize i : Nat)
    (current : String) (size : Nat) (chunks : List String) :
    List String × String × Nat × Nat :=
  let currentLine := lines.getD i ""
  let cp := collectParagraph lines (lines.length + 1) (i + 1)
  let paragraph := joinLines (currentLine :: cp.1)
  let nexti := cp.2
  if byteLen paragraph > chunkSize then
    let sf := sentenceFold chunkSize (splitSentences paragraph) chunks current size
    (sf.1, sf.2.1, sf.2.2, nexti)
  else if strTrim paragraph ≠ "" then
    let pwn := paragraph ++ "\n\n"
    let fc :=
      if size + byteLen pwn > chunkSize ∧ size > 0 then
        (chunks ++ [strTrim current], "", 0)
      else (chunks, current, size)
    (fc.1, fc.2.1 ++ pwn, fc.2.2 + byteLen pwn, nexti)
  else (chunks, current, size, nexti)

/-- The main line loop of `chunk_document` (fuelled; the loop index grows
strictly on every reachable iteration, so `lines.length + 1` units of fuel
cover every run).  Returns the flushed chunks and the unfinished current
chunk. -/
def chunkGo (lines : List String) (chunkSize : Nat) :
    Nat → Nat → String → Nat → List String → List String × String
  | 0, _, current, _, chunks => (chunks, current)
  | fuel + 1, i, current, size, chunks =>
    if i ≥ lines.length then (chunks, current)
    else if strTrim (lines.getD i "") = "" then
      chunkGo lines chunkSize fuel (i + 1) current size chunks
    else if isTableStart lines i then
      let tfc := chunkTitleStep lines i current size chunks
      let st := chunkTableStep lines chunkSize i tfc.1 tfc.2.1 tfc.2.2.1 tfc.2.2.2
      chunkGo lines chunkSize fuel st.2.2.2 st.2.1 st.2.2.1 st.1
    else if strStartsWith (strTrim (lines.getD i "")) "#" = true ∧
        hasTableAfterHeading lines (lines.length + 1) (i + 1) = true then
      chunkGo lines chunkSize fuel (skipBlanks lines (lines.length + 1) (i + 1))
        current size chunks
    else
      let ps := chunkParagraphStep lines chunkSize i current size chunks
      chunkGo lines chunkSize fuel (skipBlanks lines (lines.length + 1) ps.2.2.2)
        ps.2.1 ps.2.2.1 ps.1

/-- `chunk_document`: run the line loop, flush the final chunk when its
trimmed content is non-empty, and fall back to the whole text when no chunk
was produced and the text is non-empty. -/
def chunkDocument (text : String) (chunkSize : Nat) : List String :=
  let lines := rustLines text
  let go := chunkGo lines chunkSize (lines.length + 1) 0 "" 0 []
  let chunks := if strTrim go.2 ≠ "" then go.1 ++ [strTrim go.2] else go.1
  if chunks = [] ∧ text ≠ "" then [text] else chunks

/-! ## Claim C1: history auto-summarization -/

/-- C1, counterexample: the synchronous `handle_chat` performs no
compression.  Starting from four history entries, a successful chat appends
two turns, reaching `COMPRESS_THRESHOLD + 1 = 6` entries: the resulting
history has 6 entries (not ≤ 5) and its first entry is the old plain user
turn, not a summary turn, although the completion (and hence any
summarization) did not fail. -/
theorem handle_chat_no_compression_counterexample :
    (handleChat [Msg.user "m1", Msg.assistant "r1", Msg.user "m2",
        Msg.assistant "r2"] "hello" (.ok "world")).history.length
        = COMPRESS_THRESHOLD + 1
    ∧ (handleChat [Msg.user "m1", Msg.assistant "r1", Msg.user "m2",
        Msg.assistant "r2"] "hello" (.ok "world")).history.head?
        = some (Msg.user "m1")
    ∧ isSummaryTurn (Msg.user "m1") = false := by decide

/-- C1, amended: only `handle_stream_chat` compresses.  After a stream chat
append that lifts the history length above `COMPRESS_THRESHOLD`, the
resulting history has at most `COMPRESS_THRESHOLD` entries; on successful
summarization it is exactly the single synthetic summary turn, and on failed
summarization it is head-truncated to exactly `COMPRESS_THRESHOLD` entries.
The synchronous `handle_chat` only truncates at `MAX_HISTORY_MESSAGES`. -/
theorem stream_chat_compression_spec (history : List Msg)
    (rawMessage response : String) (summaryOutcome : Except String String)
    (hlen : COMPRESS_THRESHOLD < history.length + 2) :
    (streamChatHistoryUpdate history rawMessage response summaryOutcome).length
        ≤ COMPRESS_THRESHOLD
    ∧ (∀ s, summaryOutcome = .ok s →
        streamChatHistoryUpdate history rawMessage response summaryOutcome
          = [summaryMsg s])
    ∧ (∀ e, summaryOutcome = .error e →
        (streamChatHistoryUpdate history rawMessage response
          summaryOutcome).length = COMPRESS_THRESHOLD)
    ∧ (handleChat history rawMessage (.ok response)).history.length
        ≤ MAX_HISTORY_MESSAGES := by
  have hpush : (history ++ [Msg.user (strTrim rawMessage),
      Msg.assistant response]).length = history.length + 2 := by
    simp
  refine ⟨?_, ?_, ?_, ?_⟩
  · unfold streamChatHistoryUpdate compressHistory
    simp only [hpush]
    rw [if_pos (by omega)]
    rw [if_neg (by omega)]
    cases summaryOutcome with
    | ok s => simp [summaryMsg, COMPRESS_THRESHOLD]
    | error e => simp only [List.length_drop, hpush]; omega
  · intro s hs
    subst hs
    unfold streamChatHistoryUpdate compressHistory
    simp only [hpush]
    rw [if_pos (by omega)]
    rw [if_neg (by omega)]
  · intro e he
    subst he
    unfold streamChatHistoryUpdate compressHistory
    simp only [hpush]
    rw [if_pos (by omega)]
    rw [if_neg (by omega)]
    simp only [List.length_drop, hpush]
    unfold COMPRESS_THRESHOLD at hlen ⊢
    omega
  · unfold handleChat
    simp only [List.length_drop, hpush]
    unfold MAX_HISTORY_MESSAGES
    omega

/-- C1, witness for the amended theorem at a four-entry history. -/
theorem stream_chat_compression_spec_witness :
    COMPRESS_THRESHOLD <
      ([Msg.user "m1", Msg.assistant "r1", Msg.user "m2",
        Msg.assistant "r2"] : List Msg).length + 2
    ∧ (streamChatHistoryUpdate [Msg.user "m1", Msg.assistant "r1",
        Msg.user "m2", Msg.assistant "r2"] "hello" "world"
        (.ok "sum")).length ≤ COMPRESS_THRESHOLD :=
  ⟨by decide,
    (stream_chat_compression_spec [Msg.user "m1", Msg.assistant "r1",
      Msg.user "m2", Msg.assistant "r2"] "hello" "world" (.ok "sum")
      (by decide)).1⟩

/-! ## Claim C2: rebuild failure keeps the previous agent and dirty flag -/

/-- C2: when `rebuild_with_sync` fails, the previously published agent stays
current and the `needs_rebuild` flag keeps its value; a chat entered with a
set dirty flag and a failing rebuild surfaces the error while leaving the
agent and the dirty flag in place (so the next chat retries); and the flag
can only become cleared by a rebuild whose build step succeeded. -/
theorem rebuild_failure_keeps_agent_and_flag (st : AgentCore)
    (preambleFile e : String) (completion : Except String String)
    (hdirty : st.needsRebuild = true) :
    ((rebuildWithSync st preambleFile (.error e)).1.agent = st.agent
      ∧ (rebuildWithSync st preambleFile (.error e)).1.needsRebuild
          = st.needsRebuild)
    ∧ ((agentChatStep st preambleFile (.error e) completion).1.agent = st.agent
      ∧ (agentChatStep st preambleFile (.error e) completion).1.needsRebuild
          = true
      ∧ (agentChatStep st preambleFile (.error e) completion).2 = .error e)
    ∧ (∀ buildOutcome : Except String Nat,
        (rebuildWithSync st preambleFile buildOutcome).1.needsRebuild = false →
        ∃ newAgent, buildOutcome = .ok newAgent) := by
  refine ⟨⟨rfl, rfl⟩, ?_, ?_⟩
  · unfold agentChatStep
    rw [if_pos hdirty]
    exact ⟨rfl, hdirty, rfl⟩
  · intro buildOutcome hclear
    cases buildOutcome with
    | ok newAgent => exact ⟨newAgent, rfl⟩
    | error e2 =>
      exfalso
      unfold rebuildWithSync at hclear
      simp only at hclear
      rw [hdirty] at hclear
      exact absurd hclear (by decide)

/-- C2, witness at a concrete dirty agent state. -/
theorem rebuild_failure_keeps_agent_and_flag_witness :
    (⟨some 7, true, "p"⟩ : AgentCore).needsRebuild = true
    ∧ (rebuildWithSync ⟨some 7, true, "p"⟩ "file" (.error "down")).1.agent
        = (⟨some 7, true, "p"⟩ : AgentCore).agent :=
  ⟨by decide,
    (rebuild_failure_keeps_agent_and_flag ⟨some 7, true, "p"⟩ "file" "down"
      (.ok "resp") (by decide)).1.1⟩

/-! ## Claim C6: chunk timestamps -/

/-- C6, counterexample: `Utc::now()` is called once per chunk inside the
construction loop, so two chunks of one ingestion event can carry different
`created_at` values (here a clock that advances between the two calls). -/
theorem chunk_created_at_counterexample :
    ¬ (mkChunkDocuments ["a", "b"] "B" "f.txt" (fun i => i)).Pairwise
        (fun d1 d2 => d1.created_at = d2.created_at) := by decide

/-- C6, amended: every document built by `process_and_save_document` has
`created_at` equal to `updated_at` at insertion (both copies of the same
per-chunk timestamp), but chunks of one ingestion event need not share
`created_at`, because the timestamp is taken separately for each chunk. -/
theorem chunk_created_eq_updated (chunks : List String)
    (baseId filename : String) (clock : Nat → Nat) (d : Doc)
    (hd : d ∈ mkChunkDocuments chunks baseId filename clock) :
    d.created_at = d.updated_at := by
  unfold mkChunkDocuments at hd
  simp only [List.mem_map] at hd
  obtain ⟨p, _, rfl⟩ := hd
  rfl

/-- C6, witness: the first chunk document of a concrete ingestion. -/
theorem chunk_created_eq_updated_witness :
    (⟨"B-0", "a", "f.txt (Part 1/2)", 0, 0⟩ : Doc)
        ∈ mkChunkDocuments ["a", "b"] "B" "f.txt" (fun i => i)
    ∧ (⟨"B-0", "a", "f.txt (Part 1/2)", 0, 0⟩ : Doc).created_at
        = (⟨"B-0", "a", "f.txt (Part 1/2)", 0, 0⟩ : Doc).updated_at :=
  ⟨by decide,
    chunk_created_eq_updated ["a", "b"] "B" "f.txt" (fun i => i)
      ⟨"B-0", "a", "f.txt (Part 1/2)", 0, 0⟩ (by decide)⟩

/-! ## Claim C9: preamble secret key -/

/-- C9, counterexample: a request with an absent `secret_key` is treated as
the empty string, so when the `PREAMBLE_SECRET_KEY` environment variable is
set to the empty string the update succeeds (status 200, state mutated)
rather than returning 403 with unchanged state. -/
theorem preamble_absent_secret_counterexample :
    updatePreamble (some "") none "newp" ⟨"old", false⟩ (.ok ())
        = (200, ⟨"newp", true⟩)
    ∧ (200 : Nat) ≠ 403
    ∧ (⟨"newp", true⟩ : PreambleState) ≠ ⟨"old", false⟩ := by decide

/-- C9, amended: an absent `secret_key` is treated as the empty string; the
update is rejected with 403 and the in-memory preamble and dirty flag are
left unchanged exactly when the provided secret (empty if absent) differs
from the `PREAMBLE_SECRET_KEY` environment value (default `aaa111===`). -/
theorem preamble_secret_mismatch_rejected (envSecret reqSecretKey : Option String)
    (content : String) (st : PreambleState) (saveOutcome : Except String Unit)
    (hmismatch : reqSecretKey.getD "" ≠ envSecret.getD defaultPreambleSecret) :
    updatePreamble envSecret reqSecretKey content st saveOutcome = (403, st) := by
  unfold updatePreamble
  rw [if_pos hmismatch]

/-- C9, witness: a wrong secret against the default key. -/
theorem preamble_secret_mismatch_rejected_witness :
    (some "bad" : Option String).getD ""
        ≠ (none : Option String).getD defaultPreambleSecret
    ∧ updatePreamble none (some "bad") "newp" ⟨"old", false⟩ (.ok ())
        = (403, ⟨"old", false⟩) :=
  ⟨by decide,
    preamble_secret_mismatch_rejected none (some "bad") "newp" ⟨"old", false⟩
      (.ok ()) (by decide)⟩

/-! ## Claim C10: failed completion leaves history and log untouched -/

/-- C10: when the completion fails during a synchronous chat, the per-user
history is unchanged, nothing is written to the durable conversation log,
and the endpoint still answers HTTP 200 with the error text in the
`response` field. -/
theorem chat_error_leaves_state_unchanged (history : List Msg)
    (rawMessage e : String) :
    handleChat history rawMessage (.error e) =
      { history := history, dbWrites := [], status := 200,
        response := "Sorry, I encountered an error: " ++ e } := rfl

/-! ## Claim C3: grouped deletion by `{base_id}_CHUNKED` -/

/-- Stripping the pattern from the end of `s ++ pat` yields `s` when `s`
itself does not end with the pattern. -/
theorem trimSuffixAll_of_append (s pat : List Char) (hpat : pat ≠ [])
    (hnot : ¬ pat <:+ s) : trimSuffixAll (s ++ pat) pat = s := by
  rw [trimSuffixAll, dif_pos ⟨hpat, List.suffix_append s pat⟩]
  have hlen : (s ++ pat).length - pat.length = s.length := by
    simp [List.length_append]
  rw [hlen, List.take_left, trimSuffixAll, dif_neg]
  exact fun hc => hnot hc.2

/-- For a base id not itself ending in `_CHUNKED`, the Qdrant deletion
filter for `base_id ++ "_CHUNKED"` matches exactly the rows whose `base_id`
payload equals the base id. -/
theorem buildFilter_chunked (baseId : String)
    (hne : strEndsWith baseId chunkedSuffix = false) (r : QdrantRow) :
    buildFilterForIdentifier (baseId ++ chunkedSuffix) r
      = (r.base_id == baseId) := by
  unfold buildFilterForIdentifier
  have hend : strEndsWith (baseId ++ chunkedSuffix) chunkedSuffix = true := by
    unfold strEndsWith
    rw [String.data_append]
    exact decide_eq_true (List.suffix_append _ _)
  rw [hend, if_pos rfl]
  have htrim : trimSuffixAll (baseId ++ chunkedSuffix).data chunkedSuffix.data
      = baseId.data := by
    rw [String.data_append]
    refine trimSuffixAll_of_append _ _ (by decide) ?_
    exact of_decide_eq_false hne
  rw [htrim]

/-- C3, counterexample: on the LanceDB store (the store wired to the web
routes), `delete("X_CHUNKED")` is the literal predicate `id = 'X_CHUNKED'`
and removes neither of the two chunk rows `X-0`, `X-1`, although the claimed
deletion set contains both of them. -/
theorem delete_chunked_counterexample :
    lancedbDeleteDocument [⟨"X-0", "c0"⟩, ⟨"X-1", "c1"⟩] ("X" ++ chunkedSuffix)
        = [⟨"X-0", "c0"⟩, ⟨"X-1", "c1"⟩]
    ∧ ([⟨"X-0", "c0"⟩, ⟨"X-1", "c1"⟩] : List LanceRow).filter
        (fun r => !claimDeletes "X" r.id) = []
    ∧ ([⟨"X-0", "c0"⟩, ⟨"X-1", "c1"⟩] : List LanceRow) ≠ [] := by decide

/-- C3, amended: deletion by `base_id ++ "_CHUNKED"` (for a base id not
itself ending in `_CHUNKED`) removes, on the LanceDB store, exactly the rows
whose id literally equals `base_id_CHUNKED`, and on the Qdrant store exactly
the rows whose stored `base_id` payload equals `base_id`; neither store
deletes by the id-string pattern `{base_id}-*` / `base_id` of the claim. -/
theorem delete_chunked_semantics (baseId : String)
    (hne : strEndsWith baseId chunkedSuffix = false)
    (lrows : List LanceRow) (qrows : List QdrantRow) :
    lancedbDeleteDocument lrows (baseId ++ chunkedSuffix)
        = lrows.filter (fun r => r.id != baseId ++ chunkedSuffix)
    ∧ qdrantDeleteDocument qrows (baseId ++ chunkedSuffix)
        = qrows.filter (fun r => r.base_id != baseId) := by
  refine ⟨rfl, ?_⟩
  unfold qdrantDeleteDocument
  apply List.filter_congr
  intro r _
  rw [buildFilter_chunked baseId hne r]
  rfl

/-- C3, witness: the concrete base id `X` against a mixed Qdrant store. -/
theorem delete_chunked_semantics_witness :
    strEndsWith "X" chunkedSuffix = false
    ∧ qdrantDeleteDocument [⟨"X-0", "X"⟩, ⟨"X-1", "X"⟩, ⟨"Y", "Y"⟩]
        ("X" ++ chunkedSuffix)
        = ([⟨"X-0", "X"⟩, ⟨"X-1", "X"⟩, ⟨"Y", "Y"⟩] : List QdrantRow).filter
            (fun r => r.base_id != "X") :=
  ⟨by decide,
    (delete_chunked_semantics "X" (by decide) []
      [⟨"X-0", "X"⟩, ⟨"X-1", "X"⟩, ⟨"Y", "Y"⟩]).2⟩

/-! ## Claim C7: paginated listing order -/

/-- Inserting one element grows the sorted list by one. -/
theorem length_insertByUpdatedDesc (x : StoreDoc) (l : List StoreDoc) :
    (insertByUpdatedDesc x l).length = l.length + 1 := by
  induction l with
  | nil => rfl
  | cons y ys ih =>
    simp only [insertByUpdatedDesc]
    split
    · simp
    · simp [ih]

/-- The stable sort preserves length. -/
theorem length_sortByUpdatedDesc (l : List StoreDoc) :
    (sortByUpdatedDesc l).length = l.length := by
  have key : ∀ (m : List StoreDoc) (acc : List StoreDoc),
      (m.foldl (fun acc x => insertByUpdatedDesc x acc) acc).length
        = acc.length + m.length := by
    intro m
    induction m with
    | nil => intro acc; simp
    | cons y ys ih =>
      intro acc
      simp only [List.foldl_cons]
      rw [ih, length_insertByUpdatedDesc]
      simp only [List.length_cons]
      omega
  simpa using key l []

/-- C7, counterexample: the LanceDB listing fetches only the first
`offset + limit` rows in table scan order before sorting, so with two rows
in scan order `A` (older) then `B` (newer) and `limit = 1`, it returns `A`
whereas sorting the full stored set by `updated_at` descending returns
`B`. -/
theorem list_paginated_counterexample :
    lancedbListDocumentsPaginated [⟨"A", 0⟩, ⟨"B", 1⟩] 1 0 = ([⟨"A", 0⟩], 2)
    ∧ specListPaginated [⟨"A", 0⟩, ⟨"B", 1⟩] 1 0 = ([⟨"B", 1⟩], 2)
    ∧ (([⟨"A", 0⟩], 2) : List StoreDoc × Nat) ≠ ([⟨"B", 1⟩], 2) := by decide

/-- C7, amended: the Qdrant listing (server-side `order_by updated_at desc`
with offset and limit over the whole collection) matches the claimed
sort-then-paginate semantics for all inputs; the LanceDB listing matches it
only when `offset + clamped limit` covers the whole table, because it sorts
only the first `offset + limit` rows in scan order.  `limit` is clamped to
`[1, 1000]` and the full row count is returned in both stores. -/
theorem list_paginated_after_full_sort (rows : List StoreDoc)
    (limit offset : Nat) (hcover : rows.length ≤ offset + clampLimit limit) :
    lancedbListDocumentsPaginated rows limit offset
        = specListPaginated rows limit offset
    ∧ ∀ (rows2 : List StoreDoc) (limit2 offset2 : Nat),
        qdrantListDocumentsPaginated rows2 limit2 offset2
          = specListPaginated rows2 limit2 offset2 := by
  refine ⟨?_, fun _ _ _ => rfl⟩
  unfold lancedbListDocumentsPaginated specListPaginated
  dsimp only
  rw [List.take_of_length_le hcover]
  have hn : (sortByUpdatedDesc rows).length = rows.length :=
    length_sortByUpdatedDesc rows
  simp only [Prod.mk.injEq]
  refine ⟨?_, trivial⟩
  by_cases hcase : offset ≤ (sortByUpdatedDesc rows).length
  · rw [Nat.min_eq_left hcase]
    apply List.take_eq_take.mpr
    rw [List.length_drop]
    omega
  · push_neg at hcase
    rw [Nat.min_eq_right (le_of_lt hcase), List.drop_length,
      List.drop_eq_nil_of_le (le_of_lt hcase)]
    simp

/-- C7, witness: full coverage with `limit = 5`. -/
theorem list_paginated_after_full_sort_witness :
    ([⟨"A", 0⟩, ⟨"B", 1⟩] : List StoreDoc).length ≤ 0 + clampLimit 5
    ∧ lancedbListDocumentsPaginated [⟨"A", 0⟩, ⟨"B", 1⟩] 5 0
        = specListPaginated [⟨"A", 0⟩, ⟨"B", 1⟩] 5 0 :=
  ⟨by decide,
    (list_paginated_after_full_sort [⟨"A", 0⟩, ⟨"B", 1⟩] 5 0 (by decide)).1⟩

/-! ## Claim C8: the Markdown heuristic -/

/-- Appending the empty string is the identity. -/
theorem str_append_empty (s : String) : s ++ "" = s := by
  cases s with
  | mk l => exact congrArg String.mk (List.append_nil l)

/-- Prepending the empty string is the identity. -/
theorem str_empty_append (s : String) : "" ++ s = s := by
  cases s with
  | mk l => rfl

/-- The `prev_line_empty` flag of the fold, recovered from the previous
original line. -/
def prevEmptyOf : Option String → Bool
  | some p => decide (strTrim p = "")
  | none => false

/-- Emitted text of rendered lines: the first rendered line of the whole
output carries no preceding newline, all later ones do. -/
def emitAll (isFirst : Bool) (ls : List String) : String :=
  if isFirst then intercalateNl ls else strConcatMapNl ls

/-- The fold of `format_text_to_markdown` agrees with the declarative
per-line rendering, for every reachable fold state. -/
theorem fttmGo_decl (ls : List String) :
    ∀ (prevLine : Option String) (isFirst : Bool) (acc : String),
    (prevLine = none → isFirst = true) →
    (isFirst = true → prevLine = none ∨ ∃ p, prevLine = some p ∧ strTrim p = "") →
    fttmGo ls (prevEmptyOf prevLine) isFirst acc
      = acc ++ emitAll isFirst (declProcess prevLine ls) := by
  induction ls with
  | nil =>
    intro prevLine isFirst acc _ _
    cases isFirst <;>
      simp [fttmGo, emitAll, declProcess, intercalateNl, strConcatMapNl,
        str_append_empty]
  | cons l rest ih =>
    intro prevLine isFirst acc h1 h2
    by_cases ht : strTrim l = ""
    · cases prevLine with
      | none =>
        have hisF : isFirst = true := h1 rfl
        subst hisF
        have step : fttmGo (l :: rest) (prevEmptyOf none) true acc
            = fttmGo rest true true acc := by
          simp [fttmGo, prevEmptyOf, ht]
        have hpe : prevEmptyOf (some l) = true := by
          simp [prevEmptyOf, ht]
        have ihs := ih (some l) true acc (by intro hc; cases hc)
          (fun _ => Or.inr ⟨l, rfl, ht⟩)
        rw [hpe] at ihs
        rw [step, ihs]
        simp [declProcess, declRender, ht]
      | some p =>
        by_cases htp : strTrim p = ""
        · have step : fttmGo (l :: rest) (prevEmptyOf (some p)) isFirst acc
              = fttmGo rest (prevEmptyOf (some p)) isFirst acc := by
            simp [fttmGo, prevEmptyOf, htp, ht]
          have hpe : prevEmptyOf (some l) = prevEmptyOf (some p) := by
            simp [prevEmptyOf, ht, htp]
          have ihs := ih (some l) isFirst acc (by intro hc; cases hc)
            (fun _ => Or.inr ⟨l, rfl, ht⟩)
          rw [hpe] at ihs
          rw [step, ihs]
          simp [declProcess, declRender, ht, htp]
        · have hisF : isFirst = false := by
            cases isFirst with
            | false => rfl
            | true =>
              rcases h2 rfl with hc | ⟨p2, hp2, hblank⟩
              · cases hc
              · cases hp2
                exact absurd hblank htp
          subst hisF
          have step : fttmGo (l :: rest) (prevEmptyOf (some p)) false acc
              = fttmGo rest true false (acc ++ "\n") := by
            simp [fttmGo, prevEmptyOf, htp, ht]
          have hpe : prevEmptyOf (some l) = true := by
            simp [prevEmptyOf, ht]
          have ihs := ih (some l) false (acc ++ "\n") (by intro hc; cases hc)
            (by intro hc; cases hc)
          rw [hpe] at ihs
          rw [step, ihs]
          simp [declProcess, declRender, ht, htp, emitAll, strConcatMapNl,
            String.append_assoc, str_append_empty]
    · -- non-blank line
      have hrender : declRender prevLine l
          = some ((if titleHeuristic (strTrim l) (prevEmptyOf prevLine)
              then "## " else "") ++ strTrim l) := by
        cases prevLine <;> simp [declRender, prevEmptyOf, ht]
      have step : fttmGo (l :: rest) (prevEmptyOf prevLine) isFirst acc
          = fttmGo rest false false
              ((if isFirst then acc else acc ++ "\n") ++
                (if titleHeuristic (strTrim l) (prevEmptyOf prevLine)
                  then "## " else "") ++ strTrim l) := by
        simp only [fttmGo]
        rw [if_neg ht]
      have hpe : prevEmptyOf (some l) = false := by
        simp [prevEmptyOf, ht]
      have ihs := ih (some l) false
        ((if isFirst then acc else acc ++ "\n") ++
          (if titleHeuristic (strTrim l) (prevEmptyOf prevLine)
            then "## " else "") ++ strTrim l)
        (by intro hc; cases hc) (by intro hc; cases hc)
      rw [hpe] at ihs
      rw [step, ihs]
      simp only [declProcess, hrender]
      cases isFirst with
      | true =>
        simp [emitAll, intercalateNl, String.append_assoc]
      | false =>
        simp [emitAll, strConcatMapNl, String.append_assoc]

/-- C8, counterexample: the code withholds the `## ` marker from lines
ending in `。 . , ， ： :` but not from lines ending in `!` (or `?`), so the
short line `Hi!` after a blank line is prefixed by the code although the
claim (no prefix for lines ending in sentence-terminating punctuation) says
it is kept without the prefix. -/
theorem markdown_heuristic_counterexample :
    formatTextToMarkdown "a\n\nHi!" = "a\n\n## Hi!"
    ∧ claimFormatTextToMarkdown "a\n\nHi!" = "a\n\nHi!"
    ∧ ("a\n\n## Hi!" : String) ≠ "a\n\nHi!" := by decide

/-- C8, amended: `format_text_to_markdown` collapses runs of empty lines to
one (dropping a leading run entirely), emits every non-blank line trimmed,
and prefixes `## ` to exactly those lines whose trimmed form is shorter than
60 bytes, does not end in one of `。 . , ， ： :`, does not begin with `-`,
`*` or `#`, and whose immediately preceding line is blank; all other lines
are kept (trimmed) without the prefix. -/
theorem markdown_heuristic_spec (text : String) :
    formatTextToMarkdown text
      = intercalateNl (declProcess none (rustLines text)) := by
  have h := fttmGo_decl (rustLines text) none true ""
    (fun _ => rfl) (fun _ => Or.inl rfl)
  rw [show prevEmptyOf none = false from rfl] at h
  unfold formatTextToMarkdown
  rw [h]
  simp [emitAll, str_empty_append]

/-! ## Whitespace and trimming lemmas -/

/-- A string is empty exactly when its character list is. -/
theorem str_eq_empty_iff (s : String) : s = "" ↔ s.data = [] := by
  cases s with
  | mk l =>
    constructor
    · intro h; rw [h]
    · intro h
      have hl : l = [] := h
      rw [hl]

/-- An element failing the predicate survives `dropWhile`. -/
theorem mem_dropWhile_of_neg {p : Char → Bool} {x : Char} :
    ∀ {l : List Char}, p x = false → x ∈ l → x ∈ l.dropWhile p := by
  intro l
  induction l with
  | nil => intro _ hx; cases hx
  | cons y ys ih =>
    intro hpx hx
    by_cases hpy : p y = true
    · rw [List.dropWhile_cons_of_pos hpy]
      rcases List.mem_cons.mp hx with rfl | hx2
      · rw [hpy] at hpx; cases hpx
      · exact ih hpx hx2
    · rw [List.dropWhile_cons_of_neg hpy]
      exact hx

/-- The head of a non-empty `dropWhile` result fails the predicate. -/
theorem dropWhile_head_neg {p : Char → Bool} :
    ∀ (l : List Char) (x : Char) (xs : List Char),
      l.dropWhile p = x :: xs → p x = false := by
  intro l
  induction l with
  | nil => intro x xs h; cases h
  | cons y ys ih =>
    intro x xs h
    by_cases hpy : p y = true
    · rw [List.dropWhile_cons_of_pos hpy] at h
      exact ih x xs h
    · rw [List.dropWhile_cons_of_neg hpy] at h
      injection h with h1 h2
      rw [← h1]
      cases hval : p y with
      | false => rfl
      | true => exact absurd hval hpy

/-- Characters of the trimmed string come from the original string. -/
theorem mem_strTrim {c : Char} {s : String} (h : c ∈ (strTrim s).data) :
    c ∈ s.data := by
  unfold strTrim at h
  simp only at h
  rw [List.mem_reverse] at h
  have h2 := (List.dropWhile_sublist isWs).mem h
  rw [List.mem_reverse] at h2
  exact (List.dropWhile_sublist isWs).mem h2

/-- A non-empty trimmed string contains a non-whitespace character. -/
theorem hasNonWs_strTrim_of_ne {s : String} (h : strTrim s ≠ "") :
    hasNonWs (strTrim s) := by
  rw [ne_eq, str_eq_empty_iff] at h
  unfold strTrim at h ⊢
  simp only at h ⊢
  rw [List.reverse_eq_nil_iff] at h
  rcases hd : ((s.data.dropWhile isWs).reverse.dropWhile isWs) with _ | ⟨x, xs⟩
  · exact absurd hd h
  · refine ⟨x, ?_, dropWhile_head_neg _ _ _ hd⟩
    show x ∈ (x :: xs).reverse
    rw [List.mem_reverse]
    exact List.mem_cons_self x xs

/-- The trimmed string is non-empty exactly when the string has a
non-whitespace character. -/
theorem strTrim_ne_iff {s : String} : strTrim s ≠ "" ↔ hasNonWs s := by
  constructor
  · intro h
    obtain ⟨c, hc, hcw⟩ := hasNonWs_strTrim_of_ne h
    exact ⟨c, mem_strTrim hc, hcw⟩
  · rintro ⟨c, hc, hcw⟩
    rw [ne_eq, str_eq_empty_iff]
    unfold strTrim
    simp only
    rw [List.reverse_eq_nil_iff]
    intro hnil
    have h1 : c ∈ s.data.dropWhile isWs := mem_dropWhile_of_neg hcw hc
    have h2 : c ∈ (s.data.dropWhile isWs).reverse := List.mem_reverse.mpr h1
    have h3 := mem_dropWhile_of_neg hcw h2
    rw [hnil] at h3
    cases h3

/-- Left factor with a non-whitespace character. -/
theorem hasNonWs_append_left {a : String} (b : String) (h : hasNonWs a) :
    hasNonWs (a ++ b) := by
  obtain ⟨c, hc, hcw⟩ := h
  exact ⟨c, by rw [String.data_append]; exact List.mem_append_left _ hc, hcw⟩

/-- Right factor with a non-whitespace character. -/
theorem hasNonWs_append_right (a : String) {b : String} (h : hasNonWs b) :
    hasNonWs (a ++ b) := by
  obtain ⟨c, hc, hcw⟩ := h
  exact ⟨c, by rw [String.data_append]; exact List.mem_append_right _ hc, hcw⟩

/-- A string containing `|` has a non-whitespace character. -/
theorem hasNonWs_of_pipe {s : String} (h : strContainsChar s '|' = true) :
    hasNonWs s := by
  unfold strContainsChar at h
  exact ⟨'|', List.mem_of_elem_eq_true h, by decide⟩

/-- Byte length is additive over concatenation. -/
theorem byteLen_append (a b : String) :
    byteLen (a ++ b) = byteLen a + byteLen b := by
  unfold byteLen
  rw [String.data_append, List.map_append, List.sum_append]

/-- Every non-empty string has positive byte length. -/
theorem byteLen_pos {s : String} (h : s ≠ "") : 0 < byteLen s := by
  rw [ne_eq, str_eq_empty_iff] at h
  unfold byteLen
  rcases hd : s.data with _ | ⟨c, cs⟩
  · exact absurd hd h
  · simp only [hd, List.map_cons, List.sum_cons]
    have := c.utf8Size_pos
    omega

/-! ## Line-splitting lemmas -/

/-- `splitNl` never returns the empty list. -/
theorem splitNl_ne_nil (l : List Char) : splitNl l ≠ [] := by
  cases l with
  | nil => simp [splitNl]
  | cons c rest =>
    simp only [splitNl]
    by_cases hc : c = '\n'
    · rw [if_pos hc]; simp
    · rw [if_neg hc]
      rcases hs : splitNl rest with _ | ⟨p, ps⟩ <;> simp

/-- Pieces of `splitNl` contain no newline. -/
theorem splitNl_no_nl : ∀ (l : List Char), ∀ p ∈ splitNl l, '\n' ∉ p := by
  intro l
  induction l with
  | nil => intro p hp; simp [splitNl] at hp; simp [hp]
  | cons c rest ih =>
    intro p hp
    simp only [splitNl] at hp
    by_cases hc : c = '\n'
    · rw [if_pos hc] at hp
      rcases List.mem_cons.mp hp with rfl | hp2
      · simp
      · exact ih p hp2
    · rw [if_neg hc] at hp
      rcases hs : splitNl rest with _ | ⟨q, qs⟩
      · rw [hs] at hp
        rcases List.mem_cons.mp hp with rfl | hp2
        · intro hmem
          rcases List.mem_cons.mp hmem with h | h
          · exact hc h.symm
          · cases h
        · cases hp2
      · rw [hs] at hp
        rcases List.mem_cons.mp hp with rfl | hp2
        · intro hmem
          rcases List.mem_cons.mp hmem with h | h
          · exact hc h.symm
          · exact ih q (by rw [hs]; exact List.mem_cons_self q qs) h
        · exact ih p (by rw [hs]; exact List.mem_cons.mpr (Or.inr hp2))

/-- `stripCR` keeps any character other than a carriage return. -/
theorem mem_stripCR_of_ne {c : Char} {l : List Char} (hc : c ∈ l)
    (hne : c ≠ '\r') : c ∈ stripCR l := by
  unfold stripCR
  by_cases hlast : l.getLast? = some '\r'
  · rw [if_pos hlast]
    have hlnil : l ≠ [] := by
      intro h; rw [h] at hlast; cases hlast
    have hsplit := List.dropLast_append_getLast hlnil
    rw [← hsplit] at hc
    rcases List.mem_append.mp hc with h | h
    · exact h
    · rcases List.mem_cons.mp h with rfl | h2
      · exfalso
        have hg := List.getLast?_eq_getLast l hlnil
        rw [hlast] at hg
        injection hg with hg2
        exact hne hg2.symm
      · cases h2
  · rw [if_neg hlast]; exact hc

/-- `stripCR` output is contained in its input. -/
theorem stripCR_sublist (l : List Char) : (stripCR l).Sublist l := by
  unfold stripCR
  by_cases hlast : l.getLast? = some '\r'
  · rw [if_pos hlast]; exact List.dropLast_sublist l
  · rw [if_neg hlast]

/-- Lines produced by `rustLines` contain no newline. -/
theorem rustLines_no_nl (s : String) :
    ∀ ln ∈ rustLines s, '\n' ∉ ln.data := by
  intro ln hln
  unfold rustLines rustLinesL at hln
  by_cases hs : s.data = []
  · rw [if_pos hs] at hln; simp at hln
  · rw [if_neg hs] at hln
    by_cases hlast : s.data.getLast? = some '\n'
    · rw [if_pos hlast] at hln
      simp only [List.map_map, List.mem_map] at hln
      obtain ⟨q, hq, rfl⟩ := hln
      have hq2 : q ∈ splitNl s.data := (List.dropLast_sublist _).mem hq
      intro hmem
      exact splitNl_no_nl s.data q hq2 ((stripCR_sublist q).mem hmem)
    · rw [if_neg hlast] at hln
      simp only [List.map_map, List.mem_map] at hln
      obtain ⟨q, hq, rfl⟩ := hln
      intro hmem
      exact splitNl_no_nl s.data q hq ((stripCR_sublist q).mem hmem)

/-- Splitting a newline-free list yields exactly that list. -/
theorem splitNl_no_nl_self {a : List Char} (ha : '\n' ∉ a) :
    splitNl a = [a] := by
  induction a with
  | nil => rfl
  | cons c rest ih =>
    simp only [splitNl]
    have hc : ¬ c = '\n' := fun h => ha (by rw [h]; exact List.mem_cons_self _ _)
    rw [if_neg hc]
    rw [ih (fun h => ha (List.mem_cons.mpr (Or.inr h)))]

/-- Splitting around an explicit newline. -/
theorem splitNl_append_nl {a : List Char} (b : List Char) (ha : '\n' ∉ a) :
    splitNl (a ++ '\n' :: b) = a :: splitNl b := by
  induction a with
  | nil => simp [splitNl]
  | cons c rest ih =>
    have hc : ¬ c = '\n' := fun h => ha (by rw [h]; exact List.mem_cons_self _ _)
    simp only [List.cons_append, splitNl, List.append_eq]
    rw [if_neg hc, ih (fun h => ha (List.mem_cons.mpr (Or.inr h)))]

/-- A join of non-empty pieces is non-empty. -/
theorem joinLinesL_ne_nil : ∀ {ls : List (List Char)}, ls ≠ [] →
    (∀ p ∈ ls, p ≠ []) → joinLinesL ls ≠ [] := by
  intro ls
  induction ls with
  | nil => intro h; exact absurd rfl h
  | cons l rest ih =>
    intro _ hps
    cases rest with
    | nil => exact hps l (List.mem_cons_self _ _)
    | cons m ms =>
      show l ++ '\n' :: joinLinesL (m :: ms) ≠ []
      exact List.append_ne_nil_of_right_ne_nil l (List.cons_ne_nil _ _)

/-- The last character of a join of newline-free non-empty pieces is not a
newline. -/
theorem joinLinesL_getLast_ne_nl : ∀ {ls : List (List Char)}, ls ≠ [] →
    (∀ p ∈ ls, '\n' ∉ p ∧ p ≠ []) →
    (joinLinesL ls).getLast? ≠ some '\n' := by
  intro ls
  induction ls with
  | nil => intro h; exact absurd rfl h
  | cons l rest ih =>
    intro _ hps
    cases rest with
    | nil =>
      show l.getLast? ≠ some '\n'
      intro hlast
      have hmem : '\n' ∈ l := by
        have := List.getLast?_eq_getElem? l
        rw [this] at hlast
        exact List.getElem?_mem hlast
      exact (hps l (List.mem_cons_self _ _)).1 hmem
    | cons m ms =>
      show (l ++ '\n' :: joinLinesL (m :: ms)).getLast? ≠ some '\n'
      rw [List.getLast?_append]
      have hjoin : joinLinesL (m :: ms) ≠ [] :=
        joinLinesL_ne_nil (List.cons_ne_nil _ _)
          (fun p hp => (hps p (List.mem_cons.mpr (Or.inr hp))).2)
      have hIH : (joinLinesL (m :: ms)).getLast? ≠ some '\n' :=
        ih (List.cons_ne_nil _ _)
          (fun p hp => hps p (List.mem_cons.mpr (Or.inr hp)))
      have hcons : ('\n' :: joinLinesL (m :: ms)).getLast?
          = (joinLinesL (m :: ms)).getLast? := by
        rcases hj : joinLinesL (m :: ms) with _ | ⟨x, xs⟩
        · exact absurd hj hjoin
        · rw [List.getLast?_cons_cons]
      rw [hcons]
      rcases hj : (joinLinesL (m :: ms)).getLast? with _ | x
      · exact absurd (List.getLast?_eq_none_iff.mp hj) hjoin
      · simp only [Option.or_some]
        rw [hj] at hIH
        exact hIH

/-- Splitting a join of newline-free pieces recovers the pieces. -/
theorem splitNl_joinLinesL : ∀ {ls : List (List Char)}, ls ≠ [] →
    (∀ p ∈ ls, '\n' ∉ p) → splitNl (joinLinesL ls) = ls := by
  intro ls
  induction ls with
  | nil => intro h; exact absurd rfl h
  | cons l rest ih =>
    intro _ hps
    cases rest with
    | nil =>
      show splitNl l = [l]
      exact splitNl_no_nl_self (hps l (List.mem_cons_self _ _))
    | cons m ms =>
      show splitNl (l ++ '\n' :: joinLinesL (m :: ms)) = l :: m :: ms
      rw [splitNl_append_nl _ (hps l (List.mem_cons_self _ _))]
      rw [ih (List.cons_ne_nil _ _)
        (fun p hp => hps p (List.mem_cons.mpr (Or.inr hp)))]

/-- `rustLines` of a join of newline-free non-empty pieces is the pieces,
up to stripping one trailing carriage return each. -/
theorem rustLines_joinLines {tls : List String} (hne : tls ≠ [])
    (hprops : ∀ t ∈ tls, '\n' ∉ t.data ∧ t.data ≠ []) :
    rustLines (joinLines tls) = tls.map (fun t => ⟨stripCR t.data⟩) := by
  unfold rustLines joinLines rustLinesL
  have hmapne : tls.map String.data ≠ [] := by
    intro h
    exact hne (List.map_eq_nil_iff.mp h)
  have hl : ∀ p ∈ tls.map String.data, '\n' ∉ p ∧ p ≠ [] := by
    intro p hp
    simp only [List.mem_map] at hp
    obtain ⟨t, ht, rfl⟩ := hp
    exact hprops t ht
  have hjoin_ne : joinLinesL (tls.map String.data) ≠ [] :=
    joinLinesL_ne_nil hmapne (fun p hp => (hl p hp).2)
  rw [if_neg hjoin_ne]
  have hlast : ¬ (joinLinesL (tls.map String.data)).getLast? = some '\n' :=
    joinLinesL_getLast_ne_nl hmapne hl
  rw [if_neg hlast]
  rw [splitNl_joinLinesL hmapne (fun p hp => (hl p hp).1)]
  rw [List.map_map, List.map_map]
  rfl

/-! ## Table-collection lemmas -/

/-- The rewind never moves forward. -/
theorem collectTableRewind_le (lines : List String) :
    ∀ i, collectTableRewind lines i ≤ i := by
  intro i
  induction i with
  | zero => exact Nat.le_refl 0
  | succ j ih =>
    unfold collectTableRewind
    split
    · exact Nat.le_succ_of_le ih
    · exact Nat.le_refl _

/-- The rewind stops either where it started or on a line containing `|`. -/
theorem collectTableRewind_pipe (lines : List String) :
    ∀ i, collectTableRewind lines i = i ∨
      strContainsChar (strTrim (lines.getD (collectTableRewind lines i) "")) '|'
        = true := by
  intro i
  induction i with
  | zero => exact Or.inl rfl
  | succ j ih =>
    unfold collectTableRewind
    split
    · rcases ih with heq | hp
      · rw [heq]
        right
        assumption
      · right
        exact hp
    · exact Or.inl rfl

/-- Every line collected by the forward scan contains `|` and is a line of
the input. -/
theorem collectTableForward_mem (lines : List String) :
    ∀ fuel j, ∀ l ∈ (collectTableForward lines fuel j).1,
      strContainsChar l '|' = true ∧ l ∈ lines := by
  intro fuel
  induction fuel with
  | zero => intro j l hl; cases hl
  | succ f ih =>
    intro j l hl
    unfold collectTableForward at hl
    by_cases hj : j < lines.length
    · rw [if_pos hj] at hl
      by_cases hblank : strTrim (lines.getD j "") = ""
      · rw [if_pos hblank] at hl
        by_cases hbridge : (decide (j + 1 < lines.length) &&
            strContainsChar (strTrim (lines.getD (j + 1) "")) '|') = true
        · rw [if_pos hbridge] at hl
          exact ih (j + 1) l hl
        · rw [if_neg hbridge] at hl
          cases hl
      · rw [if_neg hblank] at hl
        by_cases hpipe : strContainsChar (strTrim (lines.getD j "")) '|' = true
        · rw [if_pos hpipe] at hl
          rcases List.mem_cons.mp hl with rfl | hl2
          · constructor
            · unfold strContainsChar at hpipe ⊢
              have hmem := List.mem_of_elem_eq_true hpipe
              exact List.elem_eq_true_of_mem (mem_strTrim hmem)
            · rw [List.getD_eq_getElem lines "" hj]
              exact List.getElem_mem hj
          · exact ih (j + 1) l hl2
        · rw [if_neg hpipe] at hl
          cases hl
    · rw [if_neg hj] at hl
      cases hl

/-- The forward scan starting on a `|` line collects at least that line. -/
theorem collectTableForward_ne_nil (lines : List String) (fuel j : Nat)
    (hj : j < lines.length)
    (hpipe : strContainsChar (strTrim (lines.getD j "")) '|' = true) :
    (collectTableForward lines (fuel + 1) j).1 ≠ [] := by
  unfold collectTableForward
  rw [if_pos hj]
  have hblank : ¬ strTrim (lines.getD j "") = "" := by
    intro hb
    rw [hb] at hpipe
    cases hpipe
  rw [if_neg hblank, if_pos hpipe]
  exact List.cons_ne_nil _ _

/-- A table start has an in-range index and a `|` on its line. -/
theorem isTableStart_pipe {lines : List String} {i : Nat}
    (h : isTableStart lines i = true) :
    i < lines.length
      ∧ strContainsChar (strTrim (lines.getD i "")) '|' = true := by
  unfold isTableStart at h
  by_cases hge : i ≥ lines.length
  · rw [if_pos hge] at h; cases h
  · rw [if_neg hge] at h
    refine ⟨Nat.lt_of_not_le hge, ?_⟩
    by_cases hpipe : strContainsChar (strTrim (lines.getD i "")) '|' = true
    · exact hpipe
    · rw [if_neg hpipe] at h; cases h

/-- At a table start, the collected table text contains `|`, and (when no
line of the input contains a newline) so does every line of the collected
table text. -/
theorem collectTable_pipe {lines : List String} {i : Nat}
    (hstart : isTableStart lines i = true)
    (hnl : ∀ l ∈ lines, '\n' ∉ l.data) :
    strContainsChar (collectTable lines i).1 '|' = true
      ∧ ∀ ln ∈ rustLines (collectTable lines i).1,
          strContainsChar ln '|' = true := by
  obtain ⟨hi, hpipe_i⟩ := isTableStart_pipe hstart
  set j := collectTableRewind lines i with hj
  have hj_le : j ≤ i := collectTableRewind_le lines i
  have hj_lt : j < lines.length := Nat.lt_of_le_of_lt hj_le hi
  have hj_pipe : strContainsChar (strTrim (lines.getD j "")) '|' = true := by
    rcases collectTableRewind_pipe lines i with heq | hp
    · rw [hj, heq]; exact hpipe_i
    · exact hp
  have hfw := collectTableForward_ne_nil lines lines.length j hj_lt hj_pipe
  set tls := (collectTableForward lines (lines.length + 1) j).1 with htls
  have hmem : ∀ l ∈ tls, strContainsChar l '|' = true ∧ l ∈ lines :=
    fun l hl => collectTableForward_mem lines (lines.length + 1) j l hl
  have hprops : ∀ t ∈ tls, '\n' ∉ t.data ∧ t.data ≠ [] := by
    intro t ht
    obtain ⟨htp, htl⟩ := hmem t ht
    refine ⟨hnl t htl, ?_⟩
    intro hdat
    have : t = "" := (str_eq_empty_iff t).mpr hdat
    rw [this] at htp
    cases htp
  have hct : (collectTable lines i).1 = joinLines tls := by
    show joinLines (collectTableForward lines (lines.length + 1)
      (collectTableRewind lines i)).1 = joinLines tls
    rw [htls, hj]
  rw [hct]
  constructor
  · rcases htls_shape : tls with _ | ⟨t0, trest⟩
    · exact absurd htls_shape hfw
    · have ht0 := (hmem t0 (by rw [htls_shape]; exact List.mem_cons_self _ _)).1
      unfold strContainsChar at ht0 ⊢
      apply List.elem_eq_true_of_mem
      have hm := List.mem_of_elem_eq_true ht0
      show '|' ∈ (joinLines (t0 :: trest)).data
      cases trest with
      | nil => exact hm
      | cons t1 ts =>
        show '|' ∈ t0.data ++ '\n' :: joinLinesL ((t1 :: ts).map String.data)
        exact List.mem_append_left _ hm
  · intro ln hln
    rw [rustLines_joinLines hfw hprops] at hln
    simp only [List.mem_map] at hln
    obtain ⟨t, ht, rfl⟩ := hln
    have htp := (hmem t ht).1
    unfold strContainsChar at htp ⊢
    apply List.elem_eq_true_of_mem
    show '|' ∈ stripCR t.data
    exact mem_stripCR_of_ne (List.mem_of_elem_eq_true htp) (by decide)

/-! ## `split_large_table` lemmas -/

/-- Every chunk of the hard line split has non-whitespace content. -/
theorem hardSplitGo_good (cs : Nat) :
    ∀ (rows : List String) (current : String),
      (∀ r ∈ rows, strContainsChar r '|' = true) →
      (current ≠ "" → hasNonWs current) →
      ∀ c ∈ hardSplitGo cs rows current, strTrim c ≠ "" := by
  intro rows
  induction rows with
  | nil =>
    intro current _ hcur c hc
    unfold hardSplitGo at hc
    by_cases hne : current ≠ ""
    · rw [if_pos hne] at hc
      rcases List.mem_cons.mp hc with rfl | h2
      · rw [strTrim_ne_iff]
        exact hasNonWs_strTrim_of_ne (strTrim_ne_iff.mpr (hcur hne))
      · cases h2
    · rw [if_neg hne] at hc
      cases hc
  | cons l rest ih =>
    intro current hrows hcur c hc
    unfold hardSplitGo at hc
    have hl : strContainsChar l '|' = true := hrows l (List.mem_cons_self _ _)
    have hrest : ∀ r ∈ rest, strContainsChar r '|' = true :=
      fun r hr => hrows r (List.mem_cons.mpr (Or.inr hr))
    have hlwn : ∀ b : String, hasNonWs (l ++ b) :=
      fun b => hasNonWs_append_left b (hasNonWs_of_pipe hl)
    by_cases hcond : byteLen current +
        byteLen (if rest = [] then l else l ++ "\n") > cs ∧ current ≠ ""
    · rw [if_pos hcond] at hc
      rcases List.mem_cons.mp hc with rfl | h2
      · rw [strTrim_ne_iff]
        exact hasNonWs_strTrim_of_ne (strTrim_ne_iff.mpr (hcur hcond.2))
      · refine ih _ hrest ?_ c h2
        intro _
        by_cases hr : rest = []
        · rw [if_pos hr]
          exact hasNonWs_of_pipe hl
        · rw [if_neg hr]
          exact hlwn "\n"
    · rw [if_neg hcond] at hc
      refine ih _ hrest ?_ c hc
      intro _
      by_cases hr : rest = []
      · rw [if_pos hr]
        exact hasNonWs_append_right current (hasNonWs_of_pipe hl)
      · rw [if_neg hr]
        exact hasNonWs_append_right current (hlwn "\n")

/-- Every chunk of the header-repeating split has non-whitespace content. -/
theorem sltGo_good (headerText : String) (headerSize cs : Nat)
    (hheader : hasNonWs headerText) :
    ∀ (rows : List String) (current : String) (currentSize : Nat),
      hasNonWs current →
      ∀ c ∈ sltGo headerText headerSize cs rows current currentSize,
        strTrim c ≠ "" := by
  intro rows
  induction rows with
  | nil =>
    intro current currentSize hcur c hc
    unfold sltGo at hc
    by_cases hcond : byteLen current > headerSize
    · rw [if_pos hcond] at hc
      rcases List.mem_cons.mp hc with rfl | h2
      · exact strTrim_ne_iff.mpr hcur
      · cases h2
    · rw [if_neg hcond] at hc
      cases hc
  | cons r rest ih =>
    intro current currentSize hcur c hc
    unfold sltGo at hc
    by_cases hcond : currentSize + byteLen ("\n" ++ r) > cs
    · rw [if_pos hcond] at hc
      rcases List.mem_cons.mp hc with rfl | h2
      · exact strTrim_ne_iff.mpr hcur
      · exact ih _ _ (hasNonWs_append_left _ hheader) c h2
    · rw [if_neg hcond] at hc
      exact ih _ _ (hasNonWs_append_left _ hcur) c hc

/-- Every chunk of `split_large_table` has non-whitespace content, given
that the table text and each of its lines contain `|`. -/
theorem splitLargeTable_good {tableText : String} (cs : Nat)
    (hpipe : strContainsChar tableText '|' = true)
    (hlines : ∀ ln ∈ rustLines tableText, strContainsChar ln '|' = true) :
    ∀ c ∈ splitLargeTable tableText cs, strTrim c ≠ "" := by
  intro c hc
  unfold splitLargeTable at hc
  by_cases hsmall : (rustLines tableText).length ≤ 2
  · rw [if_pos hsmall] at hc
    rcases List.mem_cons.mp hc with rfl | h2
    · exact strTrim_ne_iff.mpr (hasNonWs_of_pipe hpipe)
    · cases h2
  · rw [if_neg hsmall] at hc
    dsimp only at hc
    rw [if_pos (show (rustLines tableText).length ≥ 2 by omega)] at hc
    have hhead : hasNonWs (joinLines ((rustLines tableText).take 2)) := by
      rcases hshape : rustLines tableText with _ | ⟨l0, ls⟩
      · rw [hshape] at hsmall; simp at hsmall
      · have hl0 : strContainsChar l0 '|' = true := by
          apply hlines
          rw [hshape]
          exact List.mem_cons_self _ _
        cases ls with
        | nil =>
          show hasNonWs (joinLines [l0])
          exact hasNonWs_of_pipe hl0
        | cons l1 ls2 =>
          show hasNonWs (joinLines [l0, l1])
          obtain ⟨ch, hch, hchw⟩ := hasNonWs_of_pipe hl0
          refine ⟨ch, ?_, hchw⟩
          show ch ∈ l0.data ++ '\n' :: l1.data
          exact List.mem_append_left _ hch
    by_cases hhard : byteLen (joinLines ((rustLines tableText).take 2)) + 1 ≥ cs
    · rw [if_pos hhard] at hc
      exact hardSplitGo_good cs (rustLines tableText) "" hlines
        (fun hne => absurd rfl hne) c hc
    · rw [if_neg hhard] at hc
      by_cases hout : sltGo (joinLines ((rustLines tableText).take 2))
          (byteLen (joinLines ((rustLines tableText).take 2)) + 1) cs
          ((rustLines tableText).drop 2)
          (joinLines ((rustLines tableText).take 2))
          (byteLen (joinLines ((rustLines tableText).take 2)) + 1) = []
      · rw [if_pos hout] at hc
        rcases List.mem_cons.mp hc with rfl | h2
        · exact strTrim_ne_iff.mpr (hasNonWs_of_pipe hpipe)
        · cases h2
      · rw [if_neg hout] at hc
        exact sltGo_good _ _ cs hhead _ _ _ hhead c hc

/-! ## Chunker invariants -/

/-- Trimming an already-trimmed non-trivial chunk keeps it non-empty. -/
theorem goodPush {current : String} (h : strTrim current ≠ "") :
    strTrim (strTrim current) ≠ "" :=
  strTrim_ne_iff.mpr (hasNonWs_strTrim_of_ne h)

/-- A title found by the backward scan has non-whitespace content. -/
theorem findPrevNonEmpty_hasNonWs (lines : List String) :
    ∀ i l, findPrevNonEmpty lines i = some l → hasNonWs l := by
  intro i
  induction i with
  | zero => intro l h; cases h
  | succ j ih =>
    intro l h
    unfold findPrevNonEmpty at h
    by_cases hne : strTrim (lines.getD j "") ≠ ""
    · rw [if_pos hne] at h
      injection h with h2
      rw [← h2]
      exact hasNonWs_strTrim_of_ne hne
    · rw [if_neg hne] at h
      exact ih l h

/-- Every chunk of the oversized-table branch has non-whitespace content. -/
theorem oversizedTableChunks_good {titleLine : Option String}
    {tableText : String} (cs : Nat)
    (htitle : ∀ t, titleLine = some t → hasNonWs t)
    (hpipe : strContainsChar tableText '|' = true)
    (hlines : ∀ ln ∈ rustLines tableText, strContainsChar ln '|' = true) :
    ∀ c ∈ oversizedTableChunks titleLine tableText cs, strTrim c ≠ "" := by
  intro c hc
  unfold oversizedTableChunks at hc
  cases titleLine with
  | none => exact splitLargeTable_good cs hpipe hlines c hc
  | some t =>
    dsimp only at hc
    simp only [List.mem_map] at hc
    obtain ⟨x, _, rfl⟩ := hc
    exact strTrim_ne_iff.mpr (hasNonWs_append_left x (htitle t rfl))

/-- The sentence loop preserves chunk goodness and the current-chunk
invariant. -/
theorem sentenceFold_inv (cs : Nat) :
    ∀ (pieces chunks : List String) (current : String) (size : Nat),
      (∀ c ∈ chunks, strTrim c ≠ "") → (0 < size → hasNonWs current) →
      (∀ c ∈ (sentenceFold cs pieces chunks current size).1, strTrim c ≠ "")
        ∧ (0 < (sentenceFold cs pieces chunks current size).2.2 →
            hasNonWs (sentenceFold cs pieces chunks current size).2.1) := by
  intro pieces
  induction pieces with
  | nil =>
    intro chunks current size hch hcur
    exact ⟨hch, hcur⟩
  | cons s rest ih =>
    intro chunks current size hch hcur
    unfold sentenceFold
    dsimp only
    by_cases ht : strTrim s = ""
    · rw [if_pos ht]
      exact ih chunks current size hch hcur
    · rw [if_neg ht]
      have hsw : hasNonWs (strTrim s ++ ". ") :=
        hasNonWs_append_left _ (hasNonWs_strTrim_of_ne ht)
      by_cases hovf : size + byteLen (strTrim s ++ ". ") > cs ∧ size > 0
      · rw [if_pos hovf]
        refine ih _ _ _ ?_ (fun _ => hsw)
        intro c hc
        rcases List.mem_append.mp hc with h1 | h1
        · exact hch c h1
        · rw [List.mem_singleton.mp h1]
          exact goodPush (strTrim_ne_iff.mpr (hcur hovf.2))
      · rw [if_neg hovf]
        refine ih _ _ _ hch ?_
        intro _
        exact hasNonWs_append_right current hsw

/-- The title step preserves the invariants and produces a non-whitespace
title when it produces one. -/
theorem chunkTitleStep_inv (lines : List String) (i : Nat) (current : String)
    (size : Nat) (chunks : List String)
    (hch : ∀ c ∈ chunks, strTrim c ≠ "")
    (hcur : 0 < size → hasNonWs current) :
    (∀ c ∈ (chunkTitleStep lines i current size chunks).2.1, strTrim c ≠ "")
    ∧ (0 < (chunkTitleStep lines i current size chunks).2.2.2 →
        hasNonWs (chunkTitleStep lines i current size chunks).2.2.1)
    ∧ (∀ t, (chunkTitleStep lines i current size chunks).1 = some t →
        hasNonWs t) := by
  unfold chunkTitleStep
  rcases hprev : findPrevNonEmpty lines i with _ | l
  · exact ⟨hch, hcur, fun t ht => by cases ht⟩
  · have hl : hasNonWs l := findPrevNonEmpty_hasNonWs lines i l hprev
    have htl : ∀ t, some (l ++ "\n\n") = some t → hasNonWs t := by
      intro t ht
      injection ht with ht2
      rw [← ht2]
      exact hasNonWs_append_left _ hl
    dsimp only
    by_cases hhash : strStartsWith l "#" = true
    · rw [if_pos hhash]
      by_cases hcontains : strContainsSub current l = false
      · rw [if_pos hcontains]
        by_cases hflush : size > 0 ∧ strTrim current ≠ ""
        · rw [if_pos hflush]
          refine ⟨?_, fun h0 => absurd h0 (by simp), htl⟩
          intro c hc
          rcases List.mem_append.mp hc with h1 | h1
          · exact hch c h1
          · rw [List.mem_singleton.mp h1]
            exact goodPush hflush.2
        · rw [if_neg hflush]
          exact ⟨hch, hcur, htl⟩
      · rw [if_neg hcontains]
        exact ⟨hch, hcur, fun t ht => by cases ht⟩
    · rw [if_neg hhash]
      exact ⟨hch, hcur, fun t ht => by cases ht⟩

/-- Goodness is preserved by list concatenation. -/
theorem goodAppend {xs ys : List String}
    (hx : ∀ c ∈ xs, strTrim c ≠ "") (hy : ∀ c ∈ ys, strTrim c ≠ "") :
    ∀ c ∈ xs ++ ys, strTrim c ≠ "" := by
  intro c hc
  rcases List.mem_append.mp hc with h | h
  · exact hx c h
  · exact hy c h

/-- Goodness of a one-element list. -/
theorem goodSingleton {x : String} (hx : strTrim x ≠ "") :
    ∀ c ∈ [x], strTrim c ≠ "" := by
  intro c hc
  rw [List.mem_singleton.mp hc]
  exact hx

/-- The table step preserves the invariants. -/
theorem chunkTableStep_inv (lines : List String) (chunkSize i : Nat)
    (titleLine : Option String) (chunks : List String) (current : String)
    (size : Nat) (hstart : isTableStart lines i = true)
    (hnl : ∀ l ∈ lines, '\n' ∉ l.data)
    (hch : ∀ c ∈ chunks, strTrim c ≠ "")
    (hcur : 0 < size → hasNonWs current)
    (htitle : ∀ t, titleLine = some t → hasNonWs t) :
    (∀ c ∈ (chunkTableStep lines chunkSize i titleLine chunks current size).1,
        strTrim c ≠ "")
    ∧ (0 < (chunkTableStep lines chunkSize i titleLine chunks
          current size).2.2.1 →
        hasNonWs (chunkTableStep lines chunkSize i titleLine chunks
          current size).2.1) := by
  obtain ⟨hpipe_t, hlines_t⟩ := collectTable_pipe hstart hnl
  have hotc : ∀ c ∈ oversizedTableChunks titleLine (collectTable lines i).1
      chunkSize, strTrim c ≠ "" :=
    oversizedTableChunks_good chunkSize htitle hpipe_t hlines_t
  have htwn : hasNonWs ((collectTable lines i).1 ++ "\n\n") :=
    hasNonWs_append_left _ (hasNonWs_of_pipe hpipe_t)
  unfold chunkTableStep
  dsimp only
  split_ifs with hA hB hC hD hE hF hG hH <;> dsimp only
  · exfalso
    dsimp only at hD
    exact hD (by decide)
  · exact ⟨goodAppend (goodAppend hch (goodSingleton (goodPush hC))) hotc,
      fun h0 => absurd h0 (lt_irrefl 0)⟩
  · exfalso
    dsimp only at hE
    exact hE (by decide)
  · exact ⟨goodAppend hch hotc, fun h0 => absurd h0 (lt_irrefl 0)⟩
  · dsimp only at hF
    exact ⟨goodAppend (goodAppend hch (goodSingleton (goodPush hF))) hotc,
      fun h0 => absurd h0 (lt_irrefl 0)⟩
  · exact ⟨goodAppend hch hotc, hcur⟩
  · exact ⟨goodAppend hch (goodSingleton (goodPush hH)),
      fun _ => hasNonWs_append_right _ htwn⟩
  · exact ⟨hch, fun _ => hasNonWs_append_right _ htwn⟩
  · exact ⟨hch, fun _ => hasNonWs_append_right _ htwn⟩

/-- The paragraph step preserves the invariants. -/
theorem chunkParagraphStep_inv (lines : List String) (chunkSize i : Nat)
    (current : String) (size : Nat) (chunks : List String)
    (hch : ∀ c ∈ chunks, strTrim c ≠ "")
    (hcur : 0 < size → hasNonWs current) :
    (∀ c ∈ (chunkParagraphStep lines chunkSize i current size chunks).1,
        strTrim c ≠ "")
    ∧ (0 < (chunkParagraphStep lines chunkSize i current size chunks).2.2.1 →
        hasNonWs (chunkParagraphStep lines chunkSize i current size
          chunks).2.1) := by
  unfold chunkParagraphStep
  dsimp only
  set paragraph := joinLines (lines.getD i "" ::
    (collectParagraph lines (lines.length + 1) (i + 1)).1) with hpar
  by_cases h1 : byteLen paragraph > chunkSize
  · rw [if_pos h1]
    dsimp only
    exact sentenceFold_inv chunkSize (splitSentences paragraph) chunks current
      size hch hcur
  · rw [if_neg h1]
    by_cases h2 : strTrim paragraph ≠ ""
    · rw [if_pos h2]
      dsimp only
      have hpwn : hasNonWs (paragraph ++ "\n\n") :=
        hasNonWs_append_left _ (strTrim_ne_iff.mp h2)
      by_cases h3 : size + byteLen (paragraph ++ "\n\n") > chunkSize ∧ size > 0
      · rw [if_pos h3]
        dsimp only
        refine ⟨?_, fun _ => hasNonWs_append_right _ hpwn⟩
        intro c hc
        rcases List.mem_append.mp hc with h4 | h4
        · exact hch c h4
        · rw [List.mem_singleton.mp h4]
          exact goodPush (strTrim_ne_iff.mpr (hcur h3.2))
      · rw [if_neg h3]
        dsimp only
        exact ⟨hch, fun _ => hasNonWs_append_right _ hpwn⟩
    · rw [if_neg h2]
      exact ⟨hch, hcur⟩

/-- The main loop only emits chunks with non-whitespace content. -/
theorem chunkGo_good (lines : List String) (chunkSize : Nat)
    (hnl : ∀ l ∈ lines, '\n' ∉ l.data) :
    ∀ (fuel i : Nat) (current : String) (size : Nat) (chunks : List String),
      (∀ c ∈ chunks, strTrim c ≠ "") → (0 < size → hasNonWs current) →
      ∀ c ∈ (chunkGo lines chunkSize fuel i current size chunks).1,
        strTrim c ≠ "" := by
  intro fuel
  induction fuel with
  | zero =>
    intro i current size chunks hch _ c hc
    exact hch c hc
  | succ f ih =>
    intro i current size chunks hch hcur c hc
    unfold chunkGo at hc
    by_cases h1 : i ≥ lines.length
    · rw [if_pos h1] at hc
      exact hch c hc
    · rw [if_neg h1] at hc
      by_cases h2 : strTrim (lines.getD i "") = ""
      · rw [if_pos h2] at hc
        exact ih (i + 1) current size chunks hch hcur c hc
      · rw [if_neg h2] at hc
        by_cases h3 : isTableStart lines i = true
        · rw [if_pos h3] at hc
          dsimp only at hc
          obtain ⟨hta, htb, htc⟩ :=
            chunkTitleStep_inv lines i current size chunks hch hcur
          obtain ⟨hsa, hsb⟩ := chunkTableStep_inv lines chunkSize i
            (chunkTitleStep lines i current size chunks).1
            (chunkTitleStep lines i current size chunks).2.1
            (chunkTitleStep lines i current size chunks).2.2.1
            (chunkTitleStep lines i current size chunks).2.2.2
            h3 hnl hta htb htc
          exact ih _ _ _ _ hsa hsb c hc
        · rw [if_neg h3] at hc
          by_cases h4 : strStartsWith (strTrim (lines.getD i "")) "#" = true ∧
              hasTableAfterHeading lines (lines.length + 1) (i + 1) = true
          · rw [if_pos h4] at hc
            exact ih _ current size chunks hch hcur c hc
          · rw [if_neg h4] at hc
            dsimp only at hc
            obtain ⟨hpa, hpb⟩ := chunkParagraphStep_inv lines chunkSize i
              current size chunks hch hcur
            exact ih _ _ _ _ hpa hpb c hc

/-! ## Claim C5: chunk non-emptiness and the size bound -/

/-- C5, counterexample: a punctuation-free 16-byte paragraph at chunk size
10 is emitted as a single 17-byte chunk, violating the
`chunk_size × 1.1` bound; and a whitespace-only input survives the
final fallback as a single chunk that is empty after trimming. -/
theorem chunk_document_bound_counterexample :
    chunkDocument "aaaaaaaaaaaaaaaa" 10 = ["aaaaaaaaaaaaaaaa."]
    ∧ 10 * byteLen "aaaaaaaaaaaaaaaa." > 11 * 10
    ∧ chunkDocument " " 10 = [" "]
    ∧ strTrim " " = "" := by decide

/-- C5, amended: for every input text with non-whitespace content and every
chunk size, every chunk emitted by `chunk_document` is non-empty after
trimming.  (No `chunk_size × 1.1` length bound holds: a punctuation-free
paragraph longer than the chunk size is emitted whole.) -/
theorem chunk_document_nonempty (text : String) (chunkSize : Nat)
    (htext : strTrim text ≠ "") :
    ∀ c ∈ chunkDocument text chunkSize, strTrim c ≠ "" := by
  intro c hc
  unfold chunkDocument at hc
  dsimp only at hc
  set go := chunkGo (rustLines text) chunkSize ((rustLines text).length + 1)
    0 "" 0 [] with hgo
  have hgood : ∀ c2 ∈ go.1, strTrim c2 ≠ "" := by
    rw [hgo]
    exact chunkGo_good (rustLines text) chunkSize (rustLines_no_nl text)
      ((rustLines text).length + 1) 0 "" 0 []
      (fun c2 hc2 => by cases hc2) (fun h0 => absurd h0 (by simp))
  by_cases h1 : strTrim go.2 ≠ ""
  · rw [if_pos h1] at hc
    by_cases h2 : (go.1 ++ [strTrim go.2] = []) ∧ text ≠ ""
    · rw [if_pos h2] at hc
      rcases List.mem_cons.mp hc with rfl | h3
      · exact htext
      · cases h3
    · rw [if_neg h2] at hc
      rcases List.mem_append.mp hc with h3 | h3
      · exact hgood c h3
      · rw [List.mem_singleton.mp h3]
        exact goodPush h1
  · rw [if_neg h1] at hc
    by_cases h2 : (go.1 = []) ∧ text ≠ ""
    · rw [if_pos h2] at hc
      rcases List.mem_cons.mp hc with rfl | h3
      · exact htext
      · cases h3
    · rw [if_neg h2] at hc
      exact hgood c hc

/-- C5, witness: the single chunk of a plain word. -/
theorem chunk_document_nonempty_witness : strTrim "hello" ≠ "" :=
  chunk_document_nonempty "hello" 10 (by decide) "hello" (by decide)

/-! ## Claim C4: table splitting retains the header -/

/-- The header (first two lines) of a table text. -/
def headerOf (tableText : String) : String :=
  joinLines ((rustLines tableText).take 2)

/-- The body rows (third line on) of a table text. -/
def bodyRowsOf (tableText : String) : List String :=
  (rustLines tableText).drop 2

/-- `strConcatMapNl` distributes over concatenation. -/
theorem strConcatMapNl_append (a b : List String) :
    strConcatMapNl (a ++ b) = strConcatMapNl a ++ strConcatMapNl b := by
  induction a with
  | nil => simp [strConcatMapNl, str_empty_append]
  | cons x xs ih => simp [strConcatMapNl, ih, String.append_assoc]

/-- Every chunk of the header-repeating loop is the header followed by a
selection of whole body rows, in order. -/
theorem sltGo_decomp (header : String) (hsize cs : Nat) :
    ∀ (rows : List String) (current : String) (csize : Nat) (rs0 : List String),
      current = header ++ strConcatMapNl rs0 →
      ∀ c ∈ sltGo header hsize cs rows current csize,
        ∃ rs, rs.Sublist (rs0 ++ rows) ∧ c = header ++ strConcatMapNl rs := by
  intro rows
  induction rows with
  | nil =>
    intro current csize rs0 hcur c hc
    unfold sltGo at hc
    by_cases hcond : byteLen current > hsize
    · rw [if_pos hcond] at hc
      rcases List.mem_cons.mp hc with rfl | h2
      · exact ⟨rs0, by simp, hcur⟩
      · cases h2
    · rw [if_neg hcond] at hc
      cases hc
  | cons r rest ih =>
    intro current csize rs0 hcur c hc
    unfold sltGo at hc
    dsimp only at hc
    by_cases hcond : csize + byteLen ("\n" ++ r) > cs
    · rw [if_pos hcond] at hc
      rcases List.mem_cons.mp hc with rfl | h2
      · exact ⟨rs0, List.sublist_append_left rs0 (r :: rest), hcur⟩
      · obtain ⟨rs, hsub, hceq⟩ := ih (header ++ ("\n" ++ r))
          (hsize + byteLen ("\n" ++ r)) [r]
          (by simp [strConcatMapNl, str_append_empty]) c h2
        exact ⟨rs, hsub.trans (List.sublist_append_right rs0 (r :: rest)), hceq⟩
    · rw [if_neg hcond] at hc
      obtain ⟨rs, hsub, hceq⟩ := ih (current ++ ("\n" ++ r))
        (csize + byteLen ("\n" ++ r)) (rs0 ++ [r])
        (by rw [hcur, strConcatMapNl_append]
            simp [strConcatMapNl, str_append_empty, String.append_assoc]) c hc
      refine ⟨rs, ?_, hceq⟩
      rw [List.append_assoc] at hsub
      simpa using hsub

/-- A single newline has one byte. -/
theorem byteLen_nl : byteLen "\n" = 1 := by decide

/-- With at least one non-empty body row, the header-repeating loop always
emits a chunk. -/
theorem sltGo_ne_nil (header : String) (cs : Nat) :
    ∀ (rows : List String) (current : String) (csize : Nat),
      rows ≠ [] → (∀ r ∈ rows, r ≠ "") → byteLen header ≤ byteLen current →
      sltGo header (byteLen header + 1) cs rows current csize ≠ [] := by
  intro rows
  induction rows with
  | nil =>
    intro current csize hne _ _
    exact absurd rfl hne
  | cons r rest ih =>
    intro current csize _ hrows hlen
    unfold sltGo
    dsimp only
    by_cases hcond : csize + byteLen ("\n" ++ r) > cs
    · rw [if_pos hcond]
      exact List.cons_ne_nil _ _
    · rw [if_neg hcond]
      cases rest with
      | nil =>
        unfold sltGo
        have hr : 0 < byteLen r :=
          byteLen_pos (hrows r (List.mem_cons_self _ _))
        have hgrow : byteLen header + 1 < byteLen (current ++ ("\n" ++ r)) := by
          rw [byteLen_append, byteLen_append, byteLen_nl]
          omega
        rw [if_pos hgrow]
        exact List.cons_ne_nil _ _
      | cons r2 rest2 =>
        apply ih
        · exact List.cons_ne_nil _ _
        · intro x hx
          exact hrows x (List.mem_cons.mpr (Or.inr hx))
        · rw [byteLen_append]
          omega

/-- C4, counterexample: with a table whose header alone reaches the chunk
size, `chunk_document` invokes the hard line split, whose chunks do not
begin with the table's first two lines. -/
theorem table_split_header_counterexample :
    chunkDocument "|aaaa|bbb|\n|---|---|\n|1|\n|2|\n|3|" 15
      = ["|aaaa|bbb|", "|---|---|\n|1|", "|2|\n|3|"]
    ∧ headerOf "|aaaa|bbb|\n|---|---|\n|1|\n|2|\n|3|"
        = "|aaaa|bbb|\n|---|---|"
    ∧ strStartsWith "|---|---|\n|1|" "|aaaa|bbb|\n|---|---|" = false := by
  decide

/-- C4, amended: when an oversized table is split and its header (the first
two lines, plus a newline) is smaller than the chunk size, every chunk
emitted by `split_large_table` consists of the header followed by whole body
rows in their original order (so no table row is split across chunks), and
the title, when present, is prepended by `chunk_document` to each emitted
chunk; when the header itself reaches the chunk size the table is instead
hard-split line by line and chunks need not begin with the header. -/
theorem table_split_header_retained (tableText : String) (chunkSize : Nat)
    (hlen : 2 < (rustLines tableText).length)
    (hhdr : byteLen (headerOf tableText) + 1 < chunkSize)
    (hrows : ∀ l ∈ rustLines tableText, l ≠ "") :
    (∀ c ∈ splitLargeTable tableText chunkSize,
      ∃ rs, rs.Sublist (bodyRowsOf tableText)
        ∧ c = headerOf tableText ++ strConcatMapNl rs)
    ∧ (∀ (title c : String),
        c ∈ oversizedTableChunks (some title) tableText chunkSize →
        strStartsWith c title = true) := by
  constructor
  · intro c hc
    unfold splitLargeTable at hc
    rw [if_neg (by omega)] at hc
    dsimp only at hc
    rw [if_pos (show (rustLines tableText).length ≥ 2 by omega)] at hc
    have hhdr2 : ¬ byteLen (joinLines ((rustLines tableText).take 2)) + 1
        ≥ chunkSize := by
      unfold headerOf at hhdr
      omega
    rw [if_neg hhdr2] at hc
    have hbody_ne : (rustLines tableText).drop 2 ≠ [] := by
      intro hb
      have := congrArg List.length hb
      rw [List.length_drop] at this
      simp at this
      omega
    have hbody_rows : ∀ r ∈ (rustLines tableText).drop 2, r ≠ "" :=
      fun r hr => hrows r ((List.drop_sublist 2 _).mem hr)
    have hout : sltGo (joinLines ((rustLines tableText).take 2))
        (byteLen (joinLines ((rustLines tableText).take 2)) + 1) chunkSize
        ((rustLines tableText).drop 2)
        (joinLines ((rustLines tableText).take 2))
        (byteLen (joinLines ((rustLines tableText).take 2)) + 1) ≠ [] :=
      sltGo_ne_nil _ chunkSize _ _ _ hbody_ne hbody_rows (Nat.le_refl _)
    rw [if_neg hout] at hc
    obtain ⟨rs, hsub, hceq⟩ := sltGo_decomp
      (joinLines ((rustLines tableText).take 2))
      (byteLen (joinLines ((rustLines tableText).take 2)) + 1) chunkSize
      ((rustLines tableText).drop 2)
      (joinLines ((rustLines tableText).take 2))
      (byteLen (joinLines ((rustLines tableText).take 2)) + 1) []
      (str_append_empty _).symm c hc
    refine ⟨rs, ?_, hceq⟩
    simpa using hsub
  · intro title c hc
    unfold oversizedTableChunks at hc
    dsimp only at hc
    simp only [List.mem_map] at hc
    obtain ⟨x, _, rfl⟩ := hc
    unfold strStartsWith
    rw [String.data_append]
    exact decide_eq_true (List.prefix_append _ _)

/-- C4, witness: a four-line table split with an ample chunk size. -/
theorem table_split_header_retained_witness :
    2 < (rustLines "|a|b|\n|-|-|\n|1|\n|2|").length
    ∧ "|a|b|\n|-|-|\n|1|\n|2|"
        ∈ splitLargeTable "|a|b|\n|-|-|\n|1|\n|2|" 20
    ∧ ∃ rs, rs.Sublist (bodyRowsOf "|a|b|\n|-|-|\n|1|\n|2|")
        ∧ "|a|b|\n|-|-|\n|1|\n|2|"
            = headerOf "|a|b|\n|-|-|\n|1|\n|2|" ++ strConcatMapNl rs :=
  ⟨by decide, by decide,
    (table_split_header_retained "|a|b|\n|-|-|\n|1|\n|2|" 20 (by decide)
      (by decide) (by decide)).1 "|a|b|\n|-|-|\n|1|\n|2|" (by decide)⟩

end RigRag
